import Mathlib

/-!
Shallow embedding of `src/tsp.py` (greedy and backtracking TSP routers).

Costs are modelled in `ℕ∞`: Python stores costs as non-negative numbers with
`float('inf')` as an explicitly storable value; `⊤` plays the role of
`float('inf')` and finite stored values are kept verbatim.  Python dicts are
modelled as association lists read with first-match lookup (dict keys are
unique, so this coincides with dict access), and Python exceptions as an
explicit `Except` error value.
-/

set_option linter.unusedVariables false
set_option linter.unusedSectionVars false

deriving instance DecidableEq for Except

namespace TSP

/-- A weighted directed graph: an association list from node identifiers to
adjacency lists of `(neighbor, cost)` pairs; the embedding of the Python
`Dict[Any, Dict[Any, int]]` argument of both routers. -/
abbrev Graph (α : Type) := List (α × List (α × ℕ∞))

variable {α β : Type} [DecidableEq α]

/-- First-match association-list lookup: the embedding of a Python dict read
(`d[k]` when present, `k in d` tests). -/
def dictGet : List (α × β) → α → Option β
  | [], _ => none
  | (k, v) :: rest, a => if a = k then some v else dictGet rest a

/-- The node identifiers of a graph, in insertion order (Python's
`list(graph.keys())`). -/
def nodesOf (G : Graph α) : List α := G.map Prod.fst

/-- Stored edge cost with `⊤` for a missing entry: exactly the convention the
distance matrix of `backtracking_tsp` is built with (source lines 104-110:
`dist[i][j] = graph[from_node][to_node]` when the entry exists, else `INF`).
Note: no `999999` normalization happens here, mirroring the source. -/
def nameDist (G : Graph α) (u v : α) : ℕ∞ :=
  match dictGet G u with
  | none => ⊤
  | some nbrs =>
    match dictGet nbrs v with
    | none => ⊤
    | some c => c

/-- The errors the routers raise (Python `KeyError` for a missing node,
`ValueError` for the two strict-mode disconnection failures). -/
inductive TSPError (α : Type) where
  | nodeNotFound (x : α)
  | disconnected (current : α)
  | cannotClose (current start : α)
deriving DecidableEq

/-- Candidate collection of `greedy_tsp`'s main loop (source lines 33-48): for
each unvisited node with a direct edge, the stored cost is appended raw — the
`cost == float('inf') or cost >= 999999` test only decides, in tandem with
`allow_disconnected`, whether the node is admitted at all; a node with no
direct edge is admitted with cost `⊤` when disconnection is allowed. -/
def candidatesFor (nbrs : List (α × ℕ∞)) (allow : Bool) (unvisited : List α) :
    List (α × ℕ∞) :=
  unvisited.filterMap fun v =>
    match dictGet nbrs v with
    | some c =>
      if c = ⊤ ∨ 999999 ≤ c then (if allow then some (v, c) else none)
      else some (v, c)
    | none => if allow then some (v, ⊤) else none

/-- The cost a candidate carries for an unvisited node: the stored edge cost
when present, else `⊤`. -/
def costD (nbrs : List (α × ℕ∞)) (v : α) : ℕ∞ := (dictGet nbrs v).getD ⊤

/-- Python's `min(candidates, key=lambda x: x[1])`: the first element attaining
the minimal cost (later elements replace the accumulator only on strict `<`). -/
def selectMin (c : α × ℕ∞) (cs : List (α × ℕ∞)) : α × ℕ∞ :=
  cs.foldl (fun acc x => if x.2 < acc.2 then x else acc) c

/-- The `while unvisited:` loop of `greedy_tsp` (source lines 31-64), with fuel
equal to the number of remaining iterations (each iteration removes exactly one
unvisited node, so fuel `unvisited.length` runs the loop to completion; the
fuel-exhausted row is unreachable under that discipline).  The unvisited set is
modelled as a list in a fixed deterministic order.  Returns the route built so
far, the accumulated total and the final current node. -/
def greedyLoop (G : Graph α) (allow : Bool) :
    Nat → List α → α → List α → ℕ∞ → Except (TSPError α) (List α × ℕ∞ × α)
  | _, [], current, routeAcc, total => .ok (routeAcc, total, current)
  | 0, _ :: _, current, routeAcc, total => .ok (routeAcc, total, current)
  | fuel + 1, v :: rest, current, routeAcc, total =>
    match dictGet G current with
    | none => .error (.nodeNotFound current)
    | some nbrs =>
      match candidatesFor nbrs allow (v :: rest) with
      | [] =>
        if allow then
          greedyLoop G allow fuel ((v :: rest).erase v) v (routeAcc ++ [v]) (total + ⊤)
        else .error (.disconnected current)
      | c :: cs =>
        greedyLoop G allow fuel ((v :: rest).erase (selectMin c cs).1)
          (selectMin c cs).1 (routeAcc ++ [(selectMin c cs).1])
          (total + (selectMin c cs).2)

/-- The closing step of `greedy_tsp` (source lines 66-79): look up the edge back
to start, normalizing a stored cost at or above `999999` to `⊤`; a missing edge
is `⊤` in permissive mode and an error in strict mode. -/
def closeTour (G : Graph α) (allow : Bool) (start current : α)
    (routeAcc : List α) (total : ℕ∞) : Except (TSPError α) (List α × ℕ∞) :=
  match dictGet G current with
  | none => .error (.nodeNotFound current)
  | some nbrs =>
    match dictGet nbrs start with
    | some rc => .ok (routeAcc ++ [start], total + (if 999999 ≤ rc then ⊤ else rc))
    | none =>
      if allow then .ok (routeAcc ++ [start], total + ⊤)
      else .error (.cannotClose current start)

/-- The greedy router (source lines 4-81).  Empty graph short-circuits before
the start-membership check; a single-node graph returns `[start, start]` with
cost `0`. -/
def greedy_tsp (G : Graph α) (start : α) (allow : Bool) :
    Except (TSPError α) (List α × ℕ∞) :=
  match G with
  | [] => .ok ([], 0)
  | _ :: _ =>
    if start ∈ nodesOf G then
      match (nodesOf G).filter (fun v => v ≠ start) with
      | [] => .ok ([start, start], 0)
      | u :: us =>
        match greedyLoop G allow (u :: us).length (u :: us) start [start] 0 with
        | .error e => .error e
        | .ok (route, total, current) => closeTour G allow start current route total
    else .error (.nodeNotFound start)

/-- The payload of a trace step's `reason` field.  Python stores formatted
strings; the embedding keeps the same discriminating information as a sum
type carrying the interpolated numeric values. -/
inductive Reason where
  | pruning (cost best : ℕ∞)
  | newBest (total : ℕ∞)
  | cannotReturn
  | noMoreValidMoves
deriving DecidableEq

/-- One trace record of the backtracking search (the dicts appended to `steps`).
`is_solution` is `false` where Python omits the key; `reason` is `none` where
Python omits it. -/
structure Step (α : Type) where
  depth : Nat
  current_node : α
  current_cost : ℕ∞
  path : List α
  visited : List Bool
  is_backtrack : Bool
  is_solution : Bool
  reason : Option Reason
deriving DecidableEq

/-- The mutable search state threaded through `backtrack`: the best solution so
far and the append-only trace. -/
structure BState (α : Type) where
  best_cost : ℕ∞
  best_path : List Nat
  steps : List (Step α)
deriving DecidableEq

/-- The step appended on entry to every `backtrack` call (source lines 124-131). -/
def expandStep (idxName : Nat → α) (depth pos : Nat) (cost : ℕ∞)
    (path : List Nat) (visited : List Bool) : Step α :=
  { depth := depth, current_node := idxName pos, current_cost := cost,
    path := path.map idxName, visited := visited, is_backtrack := false,
    is_solution := false, reason := none }

/-- The pruning-backtrack step (source lines 135-143). -/
def pruneStep (idxName : Nat → α) (depth pos : Nat) (cost : ℕ∞)
    (path : List Nat) (visited : List Bool) (best : ℕ∞) : Step α :=
  { depth := depth, current_node := idxName pos, current_cost := cost,
    path := path.map idxName, visited := visited, is_backtrack := true,
    is_solution := false, reason := some (.pruning cost best) }

/-- The new-best-solution step (source lines 154-163): note it records the
start node as `current_node`, the completed total as `current_cost` and the
closed best path. -/
def newBestStep (idxName : Nat → α) (depth start_idx : Nat) (total : ℕ∞)
    (bestPath : List Nat) (visited : List Bool) : Step α :=
  { depth := depth, current_node := idxName start_idx, current_cost := total,
    path := bestPath.map idxName, visited := visited, is_backtrack := false,
    is_solution := true, reason := some (.newBest total) }

/-- The cannot-return-to-start backtrack step (source lines 165-173). -/
def noReturnStep (idxName : Nat → α) (depth pos : Nat) (cost : ℕ∞)
    (path : List Nat) (visited : List Bool) : Step α :=
  { depth := depth, current_node := idxName pos, current_cost := cost,
    path := path.map idxName, visited := visited, is_backtrack := true,
    is_solution := false, reason := some .cannotReturn }

/-- The no-more-valid-moves backtrack step (source lines 191-199). -/
def noMovesStep (idxName : Nat → α) (depth pos : Nat) (cost : ℕ∞)
    (path : List Nat) (visited : List Bool) : Step α :=
  { depth := depth, current_node := idxName pos, current_cost := cost,
    path := path.map idxName, visited := visited, is_backtrack := true,
    is_solution := false, reason := some .noMoreValidMoves }

/-- The `for next_idx in range(n)` loop of `backtrack` (source lines 177-187):
for each eligible index (not yet visited, finite direct edge) run the recursive
call `rec` on the extended state; the mark/unmark of `visited` is the purely
functional pass of `visited.set v true` into the recursive call only. -/
def tryMoves (dist : Nat → Nat → ℕ∞)
    (rec : List Bool → Nat → ℕ∞ → List Nat → Nat → BState α → BState α) :
    List Nat → List Bool → Nat → ℕ∞ → List Nat → Nat → BState α → BState α
  | [], _, _, _, _, _, s => s
  | v :: vs, visited, pos, cost, path, depth, s =>
    tryMoves dist rec vs visited pos cost path depth
      (if visited.getD v false = false ∧ dist pos v ≠ ⊤ then
        rec (visited.set v true) v (cost + dist pos v) (path ++ [v]) (depth + 1) s
      else s)

/-- The recursive `backtrack` procedure (source lines 120-199), with fuel as
the structural recursion handle: each recursive call consumes one unit, and the
top-level call is made with fuel `n` while the path grows by one per level and
stops at length `n`, so the fuel-exhausted row is unreachable from `btRun`. -/
def backtrack (n : Nat) (dist : Nat → Nat → ℕ∞) (start_idx : Nat)
    (idxName : Nat → α) :
    Nat → List Bool → Nat → ℕ∞ → List Nat → Nat → BState α → BState α
  | 0, _, _, _, _, _, s => s
  | fuel + 1, visited, pos, cost, path, depth, s =>
    let s0 : BState α :=
      { s with steps := s.steps ++ [expandStep idxName depth pos cost path visited] }
    if s.best_cost ≤ cost then
      { s0 with steps :=
          s0.steps ++ [pruneStep idxName depth pos cost path visited s.best_cost] }
    else if path.length = n then
      if dist pos start_idx ≠ ⊤ then
        if cost + dist pos start_idx < s.best_cost then
          { best_cost := cost + dist pos start_idx,
            best_path := path ++ [start_idx],
            steps := s0.steps ++ [newBestStep idxName depth start_idx
              (cost + dist pos start_idx) (path ++ [start_idx]) visited] }
        else s0
      else { s0 with steps :=
          s0.steps ++ [noReturnStep idxName depth pos cost path visited] }
    else
      let s1 := tryMoves dist
        (fun vis p c pth d st => backtrack n dist start_idx idxName fuel vis p c pth d st)
        (List.range n) visited pos cost path depth s0
      if 0 < depth then
        { s1 with steps := s1.steps ++ [noMovesStep idxName depth pos cost path visited] }
      else s1

/-- Index of the first occurrence of `a` (Python's `node_to_idx[node]` built by
enumeration; graph keys are unique so first occurrence is the occurrence). -/
def idxOf : List α → α → Nat
  | [], _ => 0
  | x :: xs, a => if a = x then 0 else idxOf xs a + 1

/-- The dense distance matrix of `backtracking_tsp` (source lines 103-110), as
a function of index pairs: the stored cost when the edge exists, else `⊤`.
No sentinel normalization is applied, mirroring the source. -/
def btDist (G : Graph α) (start : α) : Nat → Nat → ℕ∞ :=
  fun i j => nameDist G ((nodesOf G).getD i start) ((nodesOf G).getD j start)

/-- Python's `idx_to_node` map (source line 100). -/
def btName (G : Graph α) (start : α) : Nat → α :=
  fun i => (nodesOf G).getD i start

/-- Python's `node_to_idx[start]` (source line 101). -/
def btStart (G : Graph α) (start : α) : Nat := idxOf (nodesOf G) start

/-- The complete backtracking run of `backtracking_tsp` on a graph with at
least two nodes: distance matrix, initial visited array and initial call
(source lines 98-202), returning the final search state. -/
def btRun (G : Graph α) (start : α) : BState α :=
  backtrack (nodesOf G).length (btDist G start) (btStart G start)
    (btName G start) (nodesOf G).length
    ((List.replicate (nodesOf G).length false).set (btStart G start) true)
    (btStart G start) 0 [btStart G start] 0
    { best_cost := ⊤, best_path := [], steps := [] }

/-- The exact router (source lines 84-210).  Empty graph short-circuits before
the start check; single-node graph returns `[start, start]`, cost `0`, empty
trace; otherwise the search runs and an infinite best cost yields the
empty-route, cost-`0` result together with the collected trace. -/
def backtracking_tsp (G : Graph α) (start : α) :
    Except (TSPError α) (List α × ℕ∞ × List (Step α)) :=
  match G with
  | [] => .ok ([], 0, [])
  | _ :: _ =>
    if start ∈ nodesOf G then
      if (nodesOf G).length = 1 then .ok ([start, start], 0, [])
      else
        if (btRun G start).best_cost = ⊤ then .ok ([], 0, (btRun G start).steps)
        else .ok ((btRun G start).best_path.map (fun i => (nodesOf G).getD i start),
          (btRun G start).best_cost, (btRun G start).steps)
    else .error (.nodeNotFound start)

/-- Cost of walking from `u` along the successive nodes of `l` under `dist`. -/
def walkFrom (dist : Nat → Nat → ℕ∞) : Nat → List Nat → ℕ∞
  | _, [] => 0
  | u, v :: vs => dist u v + walkFrom dist v vs

/-- Cost of completing a partial tour: walk from `pos` through `rest` and then
close back to `start_idx`. -/
def extCost (dist : Nat → Nat → ℕ∞) (start_idx : Nat) : Nat → List Nat → ℕ∞
  | pos, [] => dist pos start_idx
  | pos, v :: vs => dist pos v + extCost dist start_idx v vs

/-- The visited array determined by a partial path: index `i` is marked iff it
occurs on the path. -/
def mkVisited (n : Nat) (path : List Nat) : List Bool :=
  (List.range n).map (fun i => decide (i ∈ path))

/-- All ways of inserting `a` into a list. -/
def insertAll (a : α) : List α → List (List α)
  | [] => [[a]]
  | x :: xs => (a :: x :: xs) :: (insertAll a xs).map (x :: ·)

/-- All permutations of a list (computable by structural recursion). -/
def permsOf : List α → List (List α)
  | [] => [[]]
  | x :: xs => (permsOf xs).flatMap (insertAll x)

/-- All candidate completions of a partial path: permutations of the indices
below `n` not on the path.  A closed tour exists iff some member has finite
`extCost`. -/
def completionsOf (n : Nat) (path : List Nat) : List (List Nat) :=
  permsOf ((List.range n).filter (fun i => i ∉ path))

/-- Name-level walk cost: cost of walking from `u` along the successive nodes
of `l`, reading edges the way the distance matrix does (missing entry is `⊤`). -/
def nameWalk (G : Graph α) : α → List α → ℕ∞
  | _, [] => 0
  | u, v :: vs => nameDist G u v + nameWalk G v vs

/-- Name-level tour-completion cost: walk from `u` through `l` and close back
to `start`. -/
def extCostName (G : Graph α) (start : α) : α → List α → ℕ∞
  | u, [] => nameDist G u start
  | u, v :: vs => nameDist G u v + extCostName G start v vs

/-- No feasible closed tour exists: every completion of the initial
single-node path has infinite cost under the search's distance matrix. -/
def noFeasibleTour (G : Graph α) (start : α) : Prop :=
  ∀ rest ∈ completionsOf (nodesOf G).length [btStart G start],
    extCost (btDist G start) (btStart G start) (btStart G start) rest = ⊤

/-- Shape of the trace segment a `backtrack` call appends: either nothing, or
a block opening with a non-backtrack (expansion) record. -/
def StepsShape (t : List (Step α)) : Prop :=
  t = [] ∨ ∃ x t2, t = x :: t2 ∧ x.is_backtrack = false

/-- The invariants holding of the arguments of every reachable `backtrack`
call: the visited array marks exactly the path, the path is a duplicate-free
list of indices below `n` starting at the start index, the current position is
the path's last node, and the accumulated cost is the (finite) walk cost of
the path. -/
def CallInv (n : Nat) (dist : Nat → Nat → ℕ∞) (start_idx : Nat)
    (visited : List Bool) (pos : Nat) (cost : ℕ∞) (path : List Nat) : Prop :=
  ∃ t, path = start_idx :: t ∧ visited = mkVisited n path ∧ path.Nodup ∧
    (∀ x ∈ path, x < n) ∧ pos = t.getLastD start_idx ∧
    cost = walkFrom dist start_idx t ∧ cost ≠ ⊤

/-- The invariant on the search state: when a best solution has been recorded,
its path is a closed tour over all `n` indices beginning and ending at the
start index, and a feasible (finite-cost) closed tour exists. -/
def StateInv (n : Nat) (dist : Nat → Nat → ℕ∞) (start_idx : Nat)
    (s : BState α) : Prop :=
  s.best_cost ≠ ⊤ →
    (∃ p, s.best_path = p ++ [start_idx] ∧ p.Nodup ∧ (∀ x ∈ p, x < n) ∧
      p.length = n ∧ p.head? = some start_idx) ∧
    (∃ rest, rest.Nodup ∧ (∀ x ∈ rest, x < n ∧ x ≠ start_idx) ∧
      rest.length + 1 = n ∧ extCost dist start_idx start_idx rest ≠ ⊤)

/-! ### Helper lemmas about lists, dictionaries and costs -/

theorem dictGet_some_of_mem {β : Type} (l : List (α × β)) (a : α)
    (h : a ∈ l.map Prod.fst) : ∃ b, dictGet l a = some b := by
  induction l with
  | nil => simp at h
  | cons p rest ih =>
    by_cases hp : a = p.1
    · exact ⟨p.2, by simp [dictGet, hp]⟩
    · have : a ∈ rest.map Prod.fst := by
        simp only [List.map_cons, List.mem_cons] at h
        exact h.resolve_left hp
      obtain ⟨b, hb⟩ := ih this
      exact ⟨b, by simp [dictGet, hp, hb]⟩

theorem idxOf_lt_length (l : List α) (a : α) (h : a ∈ l) :
    idxOf l a < l.length := by
  induction l with
  | nil => simp at h
  | cons x xs ih =>
    by_cases hx : a = x
    · simp [idxOf, hx]
    · have : a ∈ xs := (List.mem_cons.1 h).resolve_left hx
      simpa [idxOf, hx, Nat.succ_lt_succ_iff] using ih this

theorem getD_idxOf (l : List α) (a d : α) (h : a ∈ l) :
    l.getD (idxOf l a) d = a := by
  induction l with
  | nil => simp at h
  | cons x xs ih =>
    by_cases hx : a = x
    · simp [idxOf, hx]
    · have : a ∈ xs := (List.mem_cons.1 h).resolve_left hx
      simpa [idxOf, hx] using ih this

theorem map_getD_range (l : List α) (d : α) :
    (List.range l.length).map (fun i => l.getD i d) = l := by
  induction l with
  | nil => simp
  | cons x xs ih =>
    rw [List.length_cons, List.range_succ_eq_map, List.map_cons, List.map_map]
    simp only [List.getD_cons_zero, List.getD_cons_succ, Function.comp_def]
    rw [ih]

theorem filter_ne_length (l : List α) (a : α) (hnd : l.Nodup) (h : a ∈ l) :
    (l.filter (fun v => v ≠ a)).length + 1 = l.length := by
  induction l with
  | nil => simp at h
  | cons x xs ih =>
    rcases List.nodup_cons.1 hnd with ⟨hx, hxs⟩
    by_cases hax : a = x
    · subst hax
      have h1 : (a :: xs).filter (fun v => v ≠ a) = xs.filter (fun v => v ≠ a) := by
        simp [List.filter_cons]
      have h2 : xs.filter (fun v => v ≠ a) = xs :=
        List.filter_eq_self.2 (fun b hb => by
          have hba : b ≠ a := fun hba => hx (hba ▸ hb)
          simpa using hba)
      rw [h1, h2, List.length_cons]
    · have ha : a ∈ xs := (List.mem_cons.1 h).resolve_left hax
      have hxa : x ≠ a := fun hx2 => hax (hx2.symm)
      have h1 : (x :: xs).filter (fun v => v ≠ a) = x :: xs.filter (fun v => v ≠ a) := by
        simp [List.filter_cons, hxa]
      rw [h1, List.length_cons, List.length_cons, ← ih hxs ha]

theorem selectMin_mem (c : α × ℕ∞) (cs : List (α × ℕ∞)) :
    selectMin c cs = c ∨ selectMin c cs ∈ cs := by
  induction cs generalizing c with
  | nil => exact Or.inl rfl
  | cons x xs ih =>
    simp only [selectMin, List.foldl_cons] at *
    by_cases hx : x.2 < c.2
    · rcases ih (if x.2 < c.2 then x else c) with h | h
      · exact Or.inr (List.mem_cons.2 (Or.inl (h.trans (if_pos hx))))
      · exact Or.inr (List.mem_cons.2 (Or.inr h))
    · rcases ih (if x.2 < c.2 then x else c) with h | h
      · exact Or.inl (h.trans (if_neg hx))
      · exact Or.inr (List.mem_cons.2 (Or.inr h))

theorem candidatesFor_mem (nbrs : List (α × ℕ∞)) (allow : Bool) (l : List α)
    (p : α × ℕ∞) (hp : p ∈ candidatesFor nbrs allow l) :
    p.1 ∈ l ∧ p.2 = costD nbrs p.1 := by
  rw [candidatesFor, List.mem_filterMap] at hp
  obtain ⟨a, ha, hfa⟩ := hp
  split at hfa
  · rename_i c2 heq2
    split at hfa
    · split at hfa
      · injection hfa with h2
        refine ⟨?_, ?_⟩
        · rw [← h2]; exact ha
        · rw [← h2]; simp [costD, heq2]
      · simp at hfa
    · injection hfa with h2
      refine ⟨?_, ?_⟩
      · rw [← h2]; exact ha
      · rw [← h2]; simp [costD, heq2]
  · rename_i heq2
    split at hfa
    · injection hfa with h2
      refine ⟨?_, ?_⟩
      · rw [← h2]; exact ha
      · rw [← h2]; simp [costD, heq2]
    · simp at hfa

theorem candidatesFor_true (nbrs : List (α × ℕ∞)) (l : List α) :
    candidatesFor nbrs true l = l.map (fun v => (v, costD nbrs v)) := by
  induction l with
  | nil => rfl
  | cons v vs ih =>
    rw [candidatesFor, List.filterMap_cons, List.map_cons, ← candidatesFor, ih]
    cases hd : dictGet nbrs v with
    | some c =>
      by_cases hc : c = ⊤ ∨ 999999 ≤ c <;> simp [costD, hd, hc]
    | none => simp [costD, hd]

theorem costD_nameDist (G : Graph α) (u v : α) (nbrs : List (α × ℕ∞))
    (h : dictGet G u = some nbrs) : costD nbrs v = nameDist G u v := by
  cases hv : dictGet nbrs v <;> simp [costD, nameDist, h, hv]

theorem greedyLoop_spec (G : Graph α) :
    ∀ (fuel : Nat) (unvisited : List α) (current : α) (routeAcc : List α)
      (total : ℕ∞),
    fuel = unvisited.length →
    (∀ v ∈ unvisited, v ∈ nodesOf G) → current ∈ nodesOf G →
    ∃ mids, mids.Perm unvisited ∧
      greedyLoop G true fuel unvisited current routeAcc total
        = .ok (routeAcc ++ mids, total + nameWalk G current mids,
            mids.getLastD current) := by
  intro fuel
  induction fuel with
  | zero =>
    intro unvisited current routeAcc total hf hsub hcur
    have h0 : unvisited = [] := List.length_eq_zero.1 hf.symm
    subst h0
    exact ⟨[], List.Perm.refl _, by simp [greedyLoop, nameWalk]⟩
  | succ f ih =>
    intro unvisited current routeAcc total hf hsub hcur
    match unvisited with
    | [] => simp at hf
    | v :: rest =>
      obtain ⟨nbrs, hnbrs⟩ := dictGet_some_of_mem G current hcur
      have hunfold : greedyLoop G true (f + 1) (v :: rest) current routeAcc total
          = greedyLoop G true f
              ((v :: rest).erase (selectMin (v, costD nbrs v)
                (rest.map fun w => (w, costD nbrs w))).1)
              (selectMin (v, costD nbrs v)
                (rest.map fun w => (w, costD nbrs w))).1
              (routeAcc ++ [(selectMin (v, costD nbrs v)
                (rest.map fun w => (w, costD nbrs w))).1])
              (total + (selectMin (v, costD nbrs v)
                (rest.map fun w => (w, costD nbrs w))).2) := by
        simp only [greedyLoop, hnbrs, candidatesFor_true, List.map_cons]
      set ch := selectMin (v, costD nbrs v) (rest.map fun w => (w, costD nbrs w))
        with hch
      have hchmem : ch.1 ∈ v :: rest ∧ ch.2 = costD nbrs ch.1 := by
        rcases selectMin_mem (v, costD nbrs v) (rest.map fun w => (w, costD nbrs w))
          with h | h
        · rw [← hch] at h
          rw [h]
          exact ⟨List.mem_cons_self _ _, rfl⟩
        · rw [← hch] at h
          obtain ⟨w, hw, hweq⟩ := List.mem_map.1 h
          rw [← hweq]
          exact ⟨List.mem_cons_of_mem _ hw, rfl⟩
      have herase_len : f = ((v :: rest).erase ch.1).length := by
        rw [List.length_erase_of_mem hchmem.1]
        simp only [List.length_cons] at hf ⊢
        omega
      have hsub2 : ∀ w ∈ (v :: rest).erase ch.1, w ∈ nodesOf G :=
        fun w hw => hsub w (List.mem_of_mem_erase hw)
      have hcur2 : ch.1 ∈ nodesOf G := hsub ch.1 hchmem.1
      obtain ⟨mids2, hperm2, heq2⟩ := ih ((v :: rest).erase ch.1) ch.1
        (routeAcc ++ [ch.1]) (total + ch.2) herase_len hsub2 hcur2
      refine ⟨ch.1 :: mids2, ?_, ?_⟩
      · exact (hperm2.cons ch.1).trans (List.perm_cons_erase hchmem.1).symm
      · rw [hunfold, heq2]
        have hr : routeAcc ++ [ch.1] ++ mids2 = routeAcc ++ ch.1 :: mids2 := by
          rw [List.append_assoc]
          rfl
        have hc : total + ch.2 + nameWalk G ch.1 mids2
            = total + nameWalk G current (ch.1 :: mids2) := by
          rw [nameWalk, ← add_assoc]
          have : ch.2 = nameDist G current ch.1 :=
            hchmem.2.trans (costD_nameDist G current ch.1 nbrs hnbrs)
          rw [this]
        have hl : mids2.getLastD ch.1 = (ch.1 :: mids2).getLastD current := by
          rw [List.getLastD_cons]
        rw [hr, hc, hl]

theorem getLastD_mem (l : List α) (d : α) (h : l ≠ []) : l.getLastD d ∈ l := by
  induction l generalizing d with
  | nil => exact absurd rfl h
  | cons x xs ih =>
    rw [List.getLastD_cons]
    match xs with
    | [] => exact List.mem_cons_self _ _
    | y :: ys => exact List.mem_cons_of_mem _ (ih x (by simp))

theorem greedyLoop_shape (G : Graph α) (allow : Bool) :
    ∀ (fuel : Nat) (unvisited : List α) (current : α) (routeAcc : List α)
      (total : ℕ∞) (r : List α) (t : ℕ∞) (c : α),
    fuel = unvisited.length →
    greedyLoop G allow fuel unvisited current routeAcc total = .ok (r, t, c) →
    ∃ mids, mids.Perm unvisited ∧ r = routeAcc ++ mids := by
  intro fuel
  induction fuel with
  | zero =>
    intro unvisited current routeAcc total r t c hf hok
    have h0 : unvisited = [] := List.length_eq_zero.1 hf.symm
    subst h0
    rw [greedyLoop] at hok
    injection hok with h2
    exact ⟨[], List.Perm.refl _, by
      injection h2 with h3 h4
      rw [← h3, List.append_nil]⟩
  | succ f ih =>
    intro unvisited current routeAcc total r t c hf hok
    match unvisited with
    | [] => simp at hf
    | v :: rest =>
      cases hd : dictGet G current with
      | none => simp only [greedyLoop, hd] at hok; simp at hok
      | some nbrs =>
        cases hcand : candidatesFor nbrs allow (v :: rest) with
        | nil =>
          cases allow with
          | false => simp only [greedyLoop, hd, hcand] at hok; simp at hok
          | true =>
            simp only [greedyLoop, hd, hcand] at hok
            rw [if_pos trivial] at hok
            have hf2 : f = ((v :: rest).erase v).length := by
              rw [List.erase_cons_head]
              simp only [List.length_cons] at hf
              omega
            obtain ⟨mids2, hperm2, hr2⟩ := ih ((v :: rest).erase v) v
              (routeAcc ++ [v]) (total + ⊤) r t c hf2 hok
            refine ⟨v :: mids2, ?_, ?_⟩
            · rw [List.erase_cons_head] at hperm2
              exact hperm2.cons v
            · rw [hr2, List.append_assoc]
              rfl
        | cons c0 cs0 =>
          simp only [greedyLoop, hd, hcand] at hok
          have hchmem : (selectMin c0 cs0).1 ∈ v :: rest := by
            have h3 : selectMin c0 cs0 ∈ c0 :: cs0 := by
              rcases selectMin_mem c0 cs0 with h | h
              · rw [h]; exact List.mem_cons_self _ _
              · exact List.mem_cons_of_mem _ h
            rw [← hcand] at h3
            exact (candidatesFor_mem nbrs allow (v :: rest) _ h3).1
          have hf2 : f = ((v :: rest).erase (selectMin c0 cs0).1).length := by
            rw [List.length_erase_of_mem hchmem]
            simp only [List.length_cons] at hf ⊢
            omega
          obtain ⟨mids2, hperm2, hr2⟩ := ih ((v :: rest).erase (selectMin c0 cs0).1)
            (selectMin c0 cs0).1 (routeAcc ++ [(selectMin c0 cs0).1])
            (total + (selectMin c0 cs0).2) r t c hf2 hok
          refine ⟨(selectMin c0 cs0).1 :: mids2, ?_, ?_⟩
          · exact (hperm2.cons _).trans (List.perm_cons_erase hchmem).symm
          · rw [hr2, List.append_assoc]
            rfl

theorem closeTour_shape (G : Graph α) (allow : Bool) (start current : α)
    (routeAcc : List α) (total : ℕ∞) (r : List α) (t : ℕ∞)
    (h : closeTour G allow start current routeAcc total = .ok (r, t)) :
    r = routeAcc ++ [start] := by
  cases hd : dictGet G current with
  | none => simp only [closeTour, hd] at h; simp at h
  | some nbrs =>
    cases hns : dictGet nbrs start with
    | some rc =>
      simp only [closeTour, hd, hns] at h
      injection h with h2
      injection h2 with h3 h4
      exact h3.symm
    | none =>
      simp only [closeTour, hd, hns] at h
      cases allow with
      | false => simp at h
      | true =>
        rw [if_pos rfl] at h
        injection h with h2
        injection h2 with h3 h4
        exact h3.symm

theorem closeTour_spec (G : Graph α) (start current : α) (routeAcc : List α)
    (total : ℕ∞) (hcur : current ∈ nodesOf G) :
    ∃ cc, closeTour G true start current routeAcc total
        = .ok (routeAcc ++ [start], total + cc) ∧ nameDist G current start ≤ cc := by
  obtain ⟨nbrs, hnbrs⟩ := dictGet_some_of_mem G current hcur
  cases hns : dictGet nbrs start with
  | some rc =>
    refine ⟨if 999999 ≤ rc then ⊤ else rc, ?_, ?_⟩
    · simp only [closeTour, hnbrs, hns]
    · have h2 : nameDist G current start = rc := by simp [nameDist, hnbrs, hns]
      rw [h2]
      by_cases h9 : 999999 ≤ rc
      · rw [if_pos h9]; exact le_top
      · rw [if_neg h9]
  | none =>
    refine ⟨⊤, ?_, ?_⟩
    · simp only [closeTour, hnbrs, hns]
      rw [if_pos trivial]
    · exact le_top

theorem eq_single_of_all_eq (l : List α) (a : α) (hnd : l.Nodup) (ha : a ∈ l)
    (hall : ∀ v ∈ l, v = a) : l = [a] := by
  match l with
  | [] => simp at ha
  | x :: xs =>
    have hxa : x = a := hall x (List.mem_cons_self _ _)
    subst hxa
    match xs with
    | [] => rfl
    | y :: ys =>
      have hya : y = x := hall y (List.mem_cons_of_mem _ (List.mem_cons_self _ _))
      rcases List.nodup_cons.1 hnd with ⟨hx, _⟩
      exact absurd (hya ▸ List.mem_cons_self y ys) hx

theorem greedy_tsp_shape (G : Graph α) (start : α) (allow : Bool)
    (r : List α) (t : ℕ∞) (h : greedy_tsp G start allow = .ok (r, t))
    (hr : r ≠ []) :
    ∃ mids, mids.Perm ((nodesOf G).filter (fun v => v ≠ start)) ∧
      r = start :: (mids ++ [start]) := by
  match G with
  | [] =>
    rw [greedy_tsp] at h
    injection h with h2
    injection h2 with h3 h4
    exact absurd h3.symm hr
  | g :: gs =>
    by_cases hs : start ∈ nodesOf (g :: gs)
    · cases hfil : (nodesOf (g :: gs)).filter (fun v => v ≠ start) with
      | nil =>
        simp only [greedy_tsp, hs, if_true, hfil] at h
        injection h with h2
        injection h2 with h3 h4
        exact ⟨[], List.Perm.refl _, h3.symm⟩
      | cons u us =>
        cases hloop : greedyLoop (g :: gs) allow (u :: us).length (u :: us) start
            [start] 0 with
        | error e =>
          simp only [greedy_tsp, hs, if_true, hfil, hloop] at h
          simp at h
        | ok res =>
          obtain ⟨route, total, cur⟩ := res
          simp only [greedy_tsp, hs, if_true, hfil, hloop] at h
          obtain ⟨mids, hperm, hroute⟩ := greedyLoop_shape (g :: gs) allow
            (u :: us).length (u :: us) start [start] 0 route total cur rfl hloop
          have hclose := closeTour_shape (g :: gs) allow start cur route total r t h
          refine ⟨mids, hperm, ?_⟩
          rw [hclose, hroute, List.append_assoc]
          rfl
    · simp only [greedy_tsp, hs, if_false] at h
      simp at h

theorem greedy_tsp_spec (G : Graph α) (start : α) (hnd : (nodesOf G).Nodup)
    (hs : start ∈ nodesOf G) (h1 : (nodesOf G).length ≠ 1) :
    ∃ mids cc, mids.Perm ((nodesOf G).filter (fun v => v ≠ start)) ∧
      nameDist G (mids.getLastD start) start ≤ cc ∧
      greedy_tsp G start true
        = .ok (start :: (mids ++ [start]), nameWalk G start mids + cc) := by
  match G with
  | [] => simp [nodesOf] at hs
  | g :: gs =>
    cases hfil : (nodesOf (g :: gs)).filter (fun v => v ≠ start) with
    | nil =>
      exfalso
      have := filter_ne_length (nodesOf (g :: gs)) start hnd hs
      rw [hfil] at this
      exact h1 (by simpa using this.symm)
    | cons u us =>
      have hsub : ∀ v ∈ u :: us, v ∈ nodesOf (g :: gs) := by
        intro v hv
        rw [← hfil] at hv
        exact (List.mem_filter.1 hv).1
      obtain ⟨mids, hperm, heq⟩ := greedyLoop_spec (g :: gs) (u :: us).length
        (u :: us) start [start] 0 rfl hsub hs
      have hmids_ne : mids ≠ [] := by
        intro hnil
        have := hperm.length_eq
        rw [hnil] at this
        simp at this
      have hcur : mids.getLastD start ∈ nodesOf (g :: gs) := by
        have hmem : mids.getLastD start ∈ mids := getLastD_mem mids start hmids_ne
        exact hsub _ (hperm.mem_iff.1 hmem)
      obtain ⟨cc, hclose, hcc⟩ := closeTour_spec (g :: gs) start
        (mids.getLastD start) ([start] ++ mids) (0 + nameWalk (g :: gs) start mids)
        hcur
      refine ⟨mids, cc, hperm, hcc, ?_⟩
      simp only [greedy_tsp, hs, if_true, hfil, heq, hclose]
      rw [zero_add, List.append_assoc]
      rfl

/-! ### Lemmas about the backtracking search -/

theorem mkVisited_length (n : Nat) (path : List Nat) :
    (mkVisited n path).length = n := by
  simp [mkVisited]

theorem mkVisited_getD (n : Nat) (path : List Nat) (v : Nat) (hv : v < n) :
    (mkVisited n path).getD v false = decide (v ∈ path) := by
  rw [mkVisited, List.getD_eq_getElem?_getD, List.getElem?_map,
    List.getElem?_range hv]
  rfl

theorem mkVisited_set (n : Nat) (path : List Nat) (v : Nat) (hv : v < n) :
    (mkVisited n path).set v true = mkVisited n (path ++ [v]) := by
  apply List.ext_getElem
  · simp [mkVisited]
  · intro i h1 h2
    have hi : i < n := by simpa [mkVisited] using h2
    rw [List.getElem_set]
    simp only [mkVisited, List.getElem_map, List.getElem_range]
    by_cases hvi : v = i
    · subst hvi
      rw [if_pos rfl]
      simp
    · rw [if_neg hvi]
      have : (i ∈ path ++ [v]) ↔ (i ∈ path) := by
        simp only [List.mem_append, List.mem_singleton]
        constructor
        · intro h
          rcases h with h | h
          · exact h
          · exact absurd h.symm hvi
        · exact Or.inl
      rw [decide_eq_decide.2 this]

theorem mkVisited_init (n : Nat) (s : Nat) (hs : s < n) :
    (List.replicate n false).set s true = mkVisited n [s] := by
  apply List.ext_getElem
  · simp [mkVisited]
  · intro i h1 h2
    have hi : i < n := by simpa [mkVisited] using h2
    rw [List.getElem_set]
    simp only [mkVisited, List.getElem_map, List.getElem_range,
      List.getElem_replicate]
    by_cases hsi : s = i
    · subst hsi
      rw [if_pos rfl]
      simp
    · rw [if_neg hsi]
      simp only [List.mem_singleton]
      exact (decide_eq_false (fun h => hsi h.symm)).symm

theorem walkFrom_append (dist : Nat → Nat → ℕ∞) (u v : Nat) (l : List Nat) :
    walkFrom dist u (l ++ [v]) = walkFrom dist u l + dist (l.getLastD u) v := by
  induction l generalizing u with
  | nil => simp [walkFrom]
  | cons x xs ih =>
    rw [List.cons_append, walkFrom, walkFrom, ih x, List.getLastD_cons, add_assoc]

theorem extCost_eq_walk (dist : Nat → Nat → ℕ∞) (si u : Nat) (l : List Nat) :
    extCost dist si u l = walkFrom dist u l + dist (l.getLastD u) si := by
  induction l generalizing u with
  | nil => simp [extCost, walkFrom]
  | cons x xs ih =>
    rw [extCost, walkFrom, ih x, List.getLastD_cons, add_assoc]

theorem stepsShape_append (t1 t2 : List (Step α)) (h1 : StepsShape t1)
    (h2 : StepsShape t2) : StepsShape (t1 ++ t2) := by
  rcases h1 with h1 | ⟨x, t3, rfl, hx⟩
  · rw [h1, List.nil_append]
    exact h2
  · exact Or.inr ⟨x, t3 ++ t2, by simp, hx⟩

theorem backtrack_zero (n : Nat) (dist : Nat → Nat → ℕ∞) (si : Nat)
    (iN : Nat → α) (visited : List Bool) (pos : Nat) (cost : ℕ∞)
    (path : List Nat) (depth : Nat) (s : BState α) :
    backtrack n dist si iN 0 visited pos cost path depth s = s := rfl

theorem backtrack_prune (n : Nat) (dist : Nat → Nat → ℕ∞) (si : Nat)
    (iN : Nat → α) (fuel : Nat) (visited : List Bool) (pos : Nat) (cost : ℕ∞)
    (path : List Nat) (depth : Nat) (s : BState α)
    (h : s.best_cost ≤ cost) :
    backtrack n dist si iN (fuel + 1) visited pos cost path depth s
      = { s with steps := s.steps ++ [expandStep iN depth pos cost path visited,
          pruneStep iN depth pos cost path visited s.best_cost] } := by
  simp only [backtrack]
  rw [if_pos h]
  simp

theorem backtrack_newBest (n : Nat) (dist : Nat → Nat → ℕ∞) (si : Nat)
    (iN : Nat → α) (fuel : Nat) (visited : List Bool) (pos : Nat) (cost : ℕ∞)
    (path : List Nat) (depth : Nat) (s : BState α)
    (h : ¬ s.best_cost ≤ cost) (hlen : path.length = n)
    (hrc : dist pos si ≠ ⊤) (himp : cost + dist pos si < s.best_cost) :
    backtrack n dist si iN (fuel + 1) visited pos cost path depth s
      = { best_cost := cost + dist pos si, best_path := path ++ [si],
          steps := (s.steps ++ [expandStep iN depth pos cost path visited])
            ++ [newBestStep iN depth si (cost + dist pos si) (path ++ [si])
              visited] } := by
  simp only [backtrack]
  rw [if_neg h, if_pos hlen, if_pos hrc, if_pos himp]

theorem backtrack_noImprove (n : Nat) (dist : Nat → Nat → ℕ∞) (si : Nat)
    (iN : Nat → α) (fuel : Nat) (visited : List Bool) (pos : Nat) (cost : ℕ∞)
    (path : List Nat) (depth : Nat) (s : BState α)
    (h : ¬ s.best_cost ≤ cost) (hlen : path.length = n)
    (hrc : dist pos si ≠ ⊤) (himp : ¬ cost + dist pos si < s.best_cost) :
    backtrack n dist si iN (fuel + 1) visited pos cost path depth s
      = { s with steps :=
          s.steps ++ [expandStep iN depth pos cost path visited] } := by
  simp only [backtrack]
  rw [if_neg h, if_pos hlen, if_pos hrc, if_neg himp]

theorem backtrack_noReturn (n : Nat) (dist : Nat → Nat → ℕ∞) (si : Nat)
    (iN : Nat → α) (fuel : Nat) (visited : List Bool) (pos : Nat) (cost : ℕ∞)
    (path : List Nat) (depth : Nat) (s : BState α)
    (h : ¬ s.best_cost ≤ cost) (hlen : path.length = n)
    (hrc : ¬ dist pos si ≠ ⊤) :
    backtrack n dist si iN (fuel + 1) visited pos cost path depth s
      = { s with steps := s.steps ++ [expandStep iN depth pos cost path visited,
          noReturnStep iN depth pos cost path visited] } := by
  simp only [backtrack]
  rw [if_neg h, if_pos hlen, if_neg hrc]
  simp

theorem backtrack_branch (n : Nat) (dist : Nat → Nat → ℕ∞) (si : Nat)
    (iN : Nat → α) (fuel : Nat) (visited : List Bool) (pos : Nat) (cost : ℕ∞)
    (path : List Nat) (depth : Nat) (s : BState α)
    (h : ¬ s.best_cost ≤ cost) (hlen : ¬ path.length = n) :
    backtrack n dist si iN (fuel + 1) visited pos cost path depth s
      = (if 0 < depth then
          { tryMoves dist
              (fun vis p c pth d st => backtrack n dist si iN fuel vis p c pth d st)
              (List.range n) visited pos cost path depth
              { s with steps :=
                s.steps ++ [expandStep iN depth pos cost path visited] } with
            steps := (tryMoves dist
              (fun vis p c pth d st => backtrack n dist si iN fuel vis p c pth d st)
              (List.range n) visited pos cost path depth
              { s with steps :=
                s.steps ++ [expandStep iN depth pos cost path visited] }).steps
              ++ [noMovesStep iN depth pos cost path visited] }
        else tryMoves dist
          (fun vis p c pth d st => backtrack n dist si iN fuel vis p c pth d st)
          (List.range n) visited pos cost path depth
          { s with steps :=
            s.steps ++ [expandStep iN depth pos cost path visited] }) := by
  simp only [backtrack]
  rw [if_neg h, if_neg hlen]

theorem tryMoves_steps_shape (dist : Nat → Nat → ℕ∞)
    (rec : List Bool → Nat → ℕ∞ → List Nat → Nat → BState α → BState α)
    (hrec : ∀ vis p c pth d st, ∃ t, (rec vis p c pth d st).steps
      = st.steps ++ t ∧ StepsShape t) :
    ∀ (vs : List Nat) (visited : List Bool) (pos : Nat) (cost : ℕ∞)
      (path : List Nat) (depth : Nat) (s : BState α),
    ∃ t, (tryMoves dist rec vs visited pos cost path depth s).steps
      = s.steps ++ t ∧ StepsShape t := by
  intro vs
  induction vs with
  | nil =>
    intro visited pos cost path depth s
    exact ⟨[], by simp [tryMoves], Or.inl rfl⟩
  | cons v vs2 ih =>
    intro visited pos cost path depth s
    rw [tryMoves]
    by_cases hg : visited.getD v false = false ∧ dist pos v ≠ ⊤
    · rw [if_pos hg]
      obtain ⟨t1, ht1, hsh1⟩ := hrec (visited.set v true) v (cost + dist pos v)
        (path ++ [v]) (depth + 1) s
      obtain ⟨t2, ht2, hsh2⟩ := ih visited pos cost path depth
        (rec (visited.set v true) v (cost + dist pos v) (path ++ [v]) (depth + 1) s)
      exact ⟨t1 ++ t2, by rw [ht2, ht1, List.append_assoc],
        stepsShape_append _ _ hsh1 hsh2⟩
    · rw [if_neg hg]
      exact ih visited pos cost path depth s

theorem backtrack_steps_shape (n : Nat) (dist : Nat → Nat → ℕ∞) (si : Nat)
    (iN : Nat → α) :
    ∀ (fuel : Nat) (visited : List Bool) (pos : Nat) (cost : ℕ∞)
      (path : List Nat) (depth : Nat) (s : BState α),
    ∃ t, (backtrack n dist si iN fuel visited pos cost path depth s).steps
      = s.steps ++ t ∧ StepsShape t := by
  intro fuel
  induction fuel with
  | zero =>
    intro visited pos cost path depth s
    exact ⟨[], by rw [backtrack_zero, List.append_nil], Or.inl rfl⟩
  | succ f ih =>
    intro visited pos cost path depth s
    by_cases hp : s.best_cost ≤ cost
    · rw [backtrack_prune n dist si iN f visited pos cost path depth s hp]
      exact ⟨[expandStep iN depth pos cost path visited,
        pruneStep iN depth pos cost path visited s.best_cost], rfl,
        Or.inr ⟨_, _, rfl, rfl⟩⟩
    · by_cases hlen : path.length = n
      · by_cases hrc : dist pos si ≠ ⊤
        · by_cases himp : cost + dist pos si < s.best_cost
          · rw [backtrack_newBest n dist si iN f visited pos cost path depth s
              hp hlen hrc himp]
            refine ⟨[expandStep iN depth pos cost path visited,
              newBestStep iN depth si (cost + dist pos si) (path ++ [si]) visited],
              ?_, Or.inr ⟨_, _, rfl, rfl⟩⟩
            simp
          · rw [backtrack_noImprove n dist si iN f visited pos cost path depth s
              hp hlen hrc himp]
            exact ⟨[expandStep iN depth pos cost path visited], rfl,
              Or.inr ⟨_, _, rfl, rfl⟩⟩
        · rw [backtrack_noReturn n dist si iN f visited pos cost path depth s
            hp hlen hrc]
          exact ⟨[expandStep iN depth pos cost path visited,
            noReturnStep iN depth pos cost path visited], rfl,
            Or.inr ⟨_, _, rfl, rfl⟩⟩
      · rw [backtrack_branch n dist si iN f visited pos cost path depth s hp hlen]
        obtain ⟨t1, ht1, hsh1⟩ := tryMoves_steps_shape dist
          (fun vis p c pth d st => backtrack n dist si iN f vis p c pth d st)
          (fun vis p c pth d st => ih vis p c pth d st)
          (List.range n) visited pos cost path depth
          { s with steps := s.steps ++ [expandStep iN depth pos cost path visited] }
        by_cases hd : 0 < depth
        · rw [if_pos hd]
          refine ⟨expandStep iN depth pos cost path visited ::
            (t1 ++ [noMovesStep iN depth pos cost path visited]), ?_,
            Or.inr ⟨_, _, rfl, rfl⟩⟩
          simp only [ht1]
          simp
        · rw [if_neg hd]
          refine ⟨expandStep iN depth pos cost path visited :: t1, ?_,
            Or.inr ⟨_, _, rfl, rfl⟩⟩
          simp only [ht1]
          simp

theorem tryMoves_best_le (dist : Nat → Nat → ℕ∞)
    (rec : List Bool → Nat → ℕ∞ → List Nat → Nat → BState α → BState α)
    (hrec : ∀ vis p c pth d st, (rec vis p c pth d st).best_cost ≤ st.best_cost) :
    ∀ (vs : List Nat) (visited : List Bool) (pos : Nat) (cost : ℕ∞)
      (path : List Nat) (depth : Nat) (s : BState α),
    (tryMoves dist rec vs visited pos cost path depth s).best_cost
      ≤ s.best_cost := by
  intro vs
  induction vs with
  | nil =>
    intro visited pos cost path depth s
    rw [tryMoves]
  | cons v vs2 ih =>
    intro visited pos cost path depth s
    rw [tryMoves]
    by_cases hg : visited.getD v false = false ∧ dist pos v ≠ ⊤
    · rw [if_pos hg]
      exact le_trans (ih visited pos cost path depth _)
        (hrec (visited.set v true) v (cost + dist pos v) (path ++ [v]) (depth + 1) s)
    · rw [if_neg hg]
      exact ih visited pos cost path depth s

theorem backtrack_best_le (n : Nat) (dist : Nat → Nat → ℕ∞) (si : Nat)
    (iN : Nat → α) :
    ∀ (fuel : Nat) (visited : List Bool) (pos : Nat) (cost : ℕ∞)
      (path : List Nat) (depth : Nat) (s : BState α),
    (backtrack n dist si iN fuel visited pos cost path depth s).best_cost
      ≤ s.best_cost := by
  intro fuel
  induction fuel with
  | zero =>
    intro visited pos cost path depth s
    rw [backtrack_zero]
  | succ f ih =>
    intro visited pos cost path depth s
    by_cases hp : s.best_cost ≤ cost
    · rw [backtrack_prune n dist si iN f visited pos cost path depth s hp]
    · by_cases hlen : path.length = n
      · by_cases hrc : dist pos si ≠ ⊤
        · by_cases himp : cost + dist pos si < s.best_cost
          · rw [backtrack_newBest n dist si iN f visited pos cost path depth s
              hp hlen hrc himp]
            exact le_of_lt himp
          · rw [backtrack_noImprove n dist si iN f visited pos cost path depth s
              hp hlen hrc himp]
        · rw [backtrack_noReturn n dist si iN f visited pos cost path depth s
            hp hlen hrc]
      · rw [backtrack_branch n dist si iN f visited pos cost path depth s hp hlen]
        have hmono := tryMoves_best_le dist
          (fun vis p c pth d st => backtrack n dist si iN f vis p c pth d st)
          (fun vis p c pth d st => ih vis p c pth d st)
          (List.range n) visited pos cost path depth
          { s with steps := s.steps ++ [expandStep iN depth pos cost path visited] }
        by_cases hd : 0 < depth
        · rw [if_pos hd]
          exact hmono
        · rw [if_neg hd]
          exact hmono

theorem CallInv_extend (n : Nat) (dist : Nat → Nat → ℕ∞) (si : Nat)
    (visited : List Bool) (pos : Nat) (cost : ℕ∞) (path : List Nat) (v : Nat)
    (hinv : CallInv n dist si visited pos cost path) (hv : v < n)
    (hguard : visited.getD v false = false ∧ dist pos v ≠ ⊤) :
    CallInv n dist si (visited.set v true) v (cost + dist pos v)
      (path ++ [v]) := by
  obtain ⟨t, hpath, hvis, hnd, hlt, hpos, hcost, hfin⟩ := hinv
  have hvp : v ∉ path := by
    have h1 := hguard.1
    rw [hvis, mkVisited_getD n path v hv] at h1
    exact of_decide_eq_false h1
  refine ⟨t ++ [v], by rw [hpath]; rfl, ?_, ?_, ?_, ?_, ?_, ?_⟩
  · rw [hvis, mkVisited_set n path v hv]
  · rw [List.nodup_append]
    exact ⟨hnd, List.nodup_singleton v,
      fun x hx (hmem : x ∈ [v]) => hvp ((List.mem_singleton.1 hmem) ▸ hx)⟩
  · intro x hx
    rcases List.mem_append.1 hx with h | h
    · exact hlt x h
    · rw [List.mem_singleton.1 h]
      exact hv
  · rw [List.getLastD_concat]
  · rw [walkFrom_append, ← hcost, ← hpos]
  · exact WithTop.add_ne_top.2 ⟨hfin, hguard.2⟩

theorem tryMoves_preserves (n : Nat) (dist : Nat → Nat → ℕ∞) (si : Nat)
    (rec : List Bool → Nat → ℕ∞ → List Nat → Nat → BState α → BState α)
    (hrec : ∀ vis p c pth d st, CallInv n dist si vis p c pth →
      StateInv n dist si st → StateInv n dist si (rec vis p c pth d st)) :
    ∀ (vs : List Nat), (∀ v ∈ vs, v < n) →
    ∀ (visited : List Bool) (pos : Nat) (cost : ℕ∞) (path : List Nat)
      (depth : Nat) (s : BState α),
    CallInv n dist si visited pos cost path →
    StateInv n dist si s →
    StateInv n dist si (tryMoves dist rec vs visited pos cost path depth s) := by
  intro vs
  induction vs with
  | nil =>
    intro hvs visited pos cost path depth s hcall hstate
    rw [tryMoves]
    exact hstate
  | cons v vs2 ih =>
    intro hvs visited pos cost path depth s hcall hstate
    rw [tryMoves]
    by_cases hg : visited.getD v false = false ∧ dist pos v ≠ ⊤
    · rw [if_pos hg]
      have hv : v < n := hvs v (List.mem_cons_self _ _)
      have hstate2 := hrec (visited.set v true) v (cost + dist pos v)
        (path ++ [v]) (depth + 1) s
        (CallInv_extend n dist si visited pos cost path v hcall hv hg) hstate
      exact ih (fun w hw => hvs w (List.mem_cons_of_mem _ hw)) visited pos cost
        path depth _ hcall hstate2
    · rw [if_neg hg]
      exact ih (fun w hw => hvs w (List.mem_cons_of_mem _ hw)) visited pos cost
        path depth s hcall hstate

theorem backtrack_stateInv (n : Nat) (dist : Nat → Nat → ℕ∞) (si : Nat)
    (iN : Nat → α) :
    ∀ (fuel : Nat) (visited : List Bool) (pos : Nat) (cost : ℕ∞)
      (path : List Nat) (depth : Nat) (s : BState α),
    CallInv n dist si visited pos cost path →
    StateInv n dist si s →
    StateInv n dist si
      (backtrack n dist si iN fuel visited pos cost path depth s) := by
  intro fuel
  induction fuel with
  | zero =>
    intro visited pos cost path depth s hcall hstate
    rw [backtrack_zero]
    exact hstate
  | succ f ih =>
    intro visited pos cost path depth s hcall hstate
    by_cases hp : s.best_cost ≤ cost
    · rw [backtrack_prune n dist si iN f visited pos cost path depth s hp]
      exact hstate
    · by_cases hlen : path.length = n
      · by_cases hrc : dist pos si ≠ ⊤
        · by_cases himp : cost + dist pos si < s.best_cost
          · rw [backtrack_newBest n dist si iN f visited pos cost path depth s
              hp hlen hrc himp]
            intro hne
            obtain ⟨t, hpath, hvis, hnd, hlt, hpos, hcost, hfin⟩ := hcall
            constructor
            · refine ⟨path, rfl, hnd, hlt, hlen, ?_⟩
              rw [hpath]
              rfl
            · refine ⟨t, ?_, ?_, ?_, ?_⟩
              · rw [hpath] at hnd
                exact (List.nodup_cons.1 hnd).2
              · intro x hx
                refine ⟨hlt x (hpath ▸ List.mem_cons_of_mem _ hx), ?_⟩
                intro hxsi
                rw [hpath] at hnd
                exact (List.nodup_cons.1 hnd).1 (hxsi ▸ hx)
              · rw [hpath] at hlen
                simpa using hlen
              · rw [extCost_eq_walk, ← hcost, ← hpos]
                exact ne_top_of_lt himp
          · rw [backtrack_noImprove n dist si iN f visited pos cost path depth s
              hp hlen hrc himp]
            exact hstate
        · rw [backtrack_noReturn n dist si iN f visited pos cost path depth s
            hp hlen hrc]
          exact hstate
      · rw [backtrack_branch n dist si iN f visited pos cost path depth s hp hlen]
        have hpre := tryMoves_preserves n dist si
          (fun vis p c pth d st => backtrack n dist si iN f vis p c pth d st)
          (fun vis p c pth d st hc hs2 => ih vis p c pth d st hc hs2)
          (List.range n) (fun v hv => List.mem_range.1 hv)
          visited pos cost path depth
          { s with steps := s.steps ++ [expandStep iN depth pos cost path visited] }
          hcall hstate
        by_cases hd : 0 < depth
        · rw [if_pos hd]
          exact hpre
        · rw [if_neg hd]
          exact hpre

theorem tryMoves_bound (dist : Nat → Nat → ℕ∞)
    (rec : List Bool → Nat → ℕ∞ → List Nat → Nat → BState α → BState α)
    (v : Nat) (b : ℕ∞)
    (hmono : ∀ vis p c pth d st, (rec vis p c pth d st).best_cost ≤ st.best_cost) :
    ∀ (vs : List Nat) (visited : List Bool) (pos : Nat) (cost : ℕ∞)
      (path : List Nat) (depth : Nat) (s : BState α),
    v ∈ vs →
    visited.getD v false = false ∧ dist pos v ≠ ⊤ →
    (∀ st, (rec (visited.set v true) v (cost + dist pos v) (path ++ [v])
      (depth + 1) st).best_cost ≤ b) →
    (tryMoves dist rec vs visited pos cost path depth s).best_cost ≤ b := by
  intro vs
  induction vs with
  | nil =>
    intro visited pos cost path depth s hmem
    simp at hmem
  | cons x xs ih =>
    intro visited pos cost path depth s hmem hguard hv
    rw [tryMoves]
    by_cases hxv : x = v
    · subst hxv
      rw [if_pos hguard]
      exact le_trans
        (tryMoves_best_le dist rec hmono xs visited pos cost path depth _) (hv s)
    · have hmem2 : v ∈ xs := (List.mem_cons.1 hmem).resolve_left
        (fun h => hxv h.symm)
      by_cases hgx : visited.getD x false = false ∧ dist pos x ≠ ⊤
      · rw [if_pos hgx]
        exact ih visited pos cost path depth _ hmem2 hguard hv
      · rw [if_neg hgx]
        exact ih visited pos cost path depth s hmem2 hguard hv

theorem backtrack_bound (n : Nat) (dist : Nat → Nat → ℕ∞) (si : Nat)
    (iN : Nat → α) :
    ∀ (rest : List Nat) (fuel : Nat) (visited : List Bool) (pos : Nat)
      (cost : ℕ∞) (path : List Nat) (depth : Nat) (s : BState α),
    rest.length < fuel →
    visited = mkVisited n path →
    rest.Nodup → (∀ x ∈ rest, x < n) → (∀ x ∈ rest, x ∉ path) →
    path.length + rest.length = n →
    cost + extCost dist si pos rest ≠ ⊤ →
    (backtrack n dist si iN fuel visited pos cost path depth s).best_cost
      ≤ cost + extCost dist si pos rest := by
  intro rest
  induction rest with
  | nil =>
    intro fuel visited pos cost path depth s hfuel hvis hnd hlt hdisj hlen hfin
    obtain ⟨f, rfl⟩ : ∃ f, fuel = f + 1 := ⟨fuel - 1, by omega⟩
    rw [extCost] at hfin ⊢
    by_cases hp : s.best_cost ≤ cost
    · rw [backtrack_prune n dist si iN f visited pos cost path depth s hp]
      exact le_trans hp le_self_add
    · have hlen2 : path.length = n := by simpa using hlen
      have hrc : dist pos si ≠ ⊤ := by
        intro h
        exact hfin (by rw [h, add_top])
      by_cases himp : cost + dist pos si < s.best_cost
      · rw [backtrack_newBest n dist si iN f visited pos cost path depth s
          hp hlen2 hrc himp]
      · rw [backtrack_noImprove n dist si iN f visited pos cost path depth s
          hp hlen2 hrc himp]
        exact not_lt.1 himp
  | cons v vs ih =>
    intro fuel visited pos cost path depth s hfuel hvis hnd hlt hdisj hlen hfin
    obtain ⟨f, rfl⟩ : ∃ f, fuel = f + 1 := ⟨fuel - 1, by omega⟩
    by_cases hp : s.best_cost ≤ cost
    · rw [backtrack_prune n dist si iN f visited pos cost path depth s hp]
      exact le_trans hp le_self_add
    · have hlen2 : path.length ≠ n := by
        simp only [List.length_cons] at hlen
        omega
      rw [backtrack_branch n dist si iN f visited pos cost path depth s hp hlen2]
      have hvn : v < n := hlt v (List.mem_cons_self _ _)
      have hvpath : v ∉ path := hdisj v (List.mem_cons_self _ _)
      have hdvfin : dist pos v ≠ ⊤ := by
        intro h
        apply hfin
        rw [extCost, h, top_add, add_top]
      have hguard : visited.getD v false = false ∧ dist pos v ≠ ⊤ := by
        refine ⟨?_, hdvfin⟩
        rw [hvis, mkVisited_getD n path v hvn]
        exact decide_eq_false hvpath
      have hkey : ∀ st : BState α,
          (backtrack n dist si iN f (visited.set v true) v (cost + dist pos v)
            (path ++ [v]) (depth + 1) st).best_cost
          ≤ cost + extCost dist si pos (v :: vs) := by
        intro st
        have hvis2 : visited.set v true = mkVisited n (path ++ [v]) := by
          rw [hvis, mkVisited_set n path v hvn]
        have hfuel2 : vs.length < f := by
          simp only [List.length_cons] at hfuel
          omega
        have hnd2 : vs.Nodup := (List.nodup_cons.1 hnd).2
        have hlt2 : ∀ x ∈ vs, x < n := fun x hx => hlt x (List.mem_cons_of_mem _ hx)
        have hdisj2 : ∀ x ∈ vs, x ∉ path ++ [v] := by
          intro x hx hmem
          rcases List.mem_append.1 hmem with h | h
          · exact hdisj x (List.mem_cons_of_mem _ hx) h
          · exact (List.nodup_cons.1 hnd).1 ((List.mem_singleton.1 h) ▸ hx)
        have hlen3 : (path ++ [v]).length + vs.length = n := by
          have h0 : (v :: vs).length = vs.length + 1 := List.length_cons v vs
          rw [h0] at hlen
          rw [List.length_append]
          simp only [List.length_cons, List.length_nil]
          omega
        have hfin2 : (cost + dist pos v) + extCost dist si v vs ≠ ⊤ := by
          rw [add_assoc, ← extCost]
          exact hfin
        have := ih f (visited.set v true) v (cost + dist pos v) (path ++ [v])
          (depth + 1) st hfuel2 hvis2 hnd2 hlt2 hdisj2 hlen3 hfin2
        rw [add_assoc, ← extCost] at this
        exact this
      have hbound := tryMoves_bound dist
        (fun vis p c pth d st => backtrack n dist si iN f vis p c pth d st)
        v (cost + extCost dist si pos (v :: vs))
        (fun vis p c pth d st => backtrack_best_le n dist si iN f vis p c pth d st)
        (List.range n) visited pos cost path depth
        { s with steps := s.steps ++ [expandStep iN depth pos cost path visited] }
        (List.mem_range.2 hvn) hguard hkey
      by_cases hd : 0 < depth
      · rw [if_pos hd]
        exact hbound
      · rw [if_neg hd]
        exact hbound

/-! ### Bridging between index-level and name-level costs -/

theorem extCostName_eq_walk (G : Graph α) (start : α) (u : α) (l : List α) :
    extCostName G start u l
      = nameWalk G u l + nameDist G (l.getLastD u) start := by
  induction l generalizing u with
  | nil => simp [extCostName, nameWalk]
  | cons x xs ih =>
    rw [extCostName, nameWalk, ih x, List.getLastD_cons, add_assoc]

theorem extCost_map_idx (G : Graph α) (start : α) (hs : start ∈ nodesOf G) :
    ∀ (l : List α) (u : α), u ∈ nodesOf G → (∀ x ∈ l, x ∈ nodesOf G) →
    extCost (btDist G start) (btStart G start) (idxOf (nodesOf G) u)
      (l.map (idxOf (nodesOf G))) = extCostName G start u l := by
  intro l
  induction l with
  | nil =>
    intro u hu hl
    rw [List.map_nil, extCost, extCostName, btDist, btStart,
      getD_idxOf _ _ _ hu, getD_idxOf _ _ _ hs]
  | cons v vs ih =>
    intro u hu hl
    rw [List.map_cons, extCost, extCostName, btDist,
      getD_idxOf _ _ _ hu, getD_idxOf _ _ _ (hl v (List.mem_cons_self _ _))]
    rw [ih v (hl v (List.mem_cons_self _ _))
      (fun x hx => hl x (List.mem_cons_of_mem _ hx))]

theorem perm_range_of_nodup (n : Nat) (p : List Nat) (hnd : p.Nodup)
    (hlt : ∀ x ∈ p, x < n) (hlen : p.length = n) : p.Perm (List.range n) := by
  have hsub : p ⊆ List.range n := fun x hx => List.mem_range.2 (hlt x hx)
  have hsp : p.Subperm (List.range n) := List.subperm_of_subset hnd hsub
  exact hsp.perm_of_length_le (by rw [List.length_range, hlen])

theorem mem_insertAll_of (a : α) : ∀ (l : List α), a ∈ l →
    l ∈ insertAll a (l.erase a) := by
  intro l
  induction l with
  | nil => intro h; simp at h
  | cons y ys ih =>
    intro h
    by_cases hya : a = y
    · subst hya
      rw [List.erase_cons_head]
      match ys with
      | [] => simp [insertAll]
      | z :: zs => exact List.mem_cons_self _ _
    · have ha : a ∈ ys := (List.mem_cons.1 h).resolve_left hya
      have hyne : ¬ (y == a) := by
        simp only [beq_iff_eq]
        exact fun h2 => hya h2.symm
      rw [List.erase_cons_tail hyne, insertAll]
      exact List.mem_cons_of_mem _
        (List.mem_map.2 ⟨ys, ih ha, rfl⟩)

theorem perm_mem_permsOf : ∀ (l l2 : List α), l2.Perm l → l2 ∈ permsOf l := by
  intro l
  induction l with
  | nil =>
    intro l2 h
    rw [List.perm_nil.1 h]
    simp [permsOf]
  | cons x xs ih =>
    intro l2 h
    have hx : x ∈ l2 := h.mem_iff.2 (List.mem_cons_self _ _)
    have he : (l2.erase x).Perm xs := by
      have h2 := h.erase x
      rwa [List.erase_cons_head] at h2
    rw [permsOf]
    exact List.mem_flatMap.2 ⟨l2.erase x, ih (l2.erase x) he,
      mem_insertAll_of x l2 hx⟩

theorem feasible_mem_completions (n : Nat) (si : Nat) (hsi : si < n)
    (rest : List Nat) (hnd : rest.Nodup) (hx : ∀ x ∈ rest, x < n ∧ x ≠ si)
    (hlen : rest.length + 1 = n) : rest ∈ completionsOf n [si] := by
  rw [completionsOf]
  apply perm_mem_permsOf
  have hcongr : (List.range n).filter (fun i => i ∉ [si])
      = (List.range n).filter (fun i => i ≠ si) := by
    apply List.filter_congr
    intro x hx2
    simp
  rw [hcongr]
  have hflen : ((List.range n).filter (fun i => i ≠ si)).length + 1 = n := by
    have h0 := filter_ne_length (List.range n) si (List.nodup_range n)
      (List.mem_range.2 hsi)
    rw [List.length_range] at h0
    exact h0
  have hsub : rest ⊆ (List.range n).filter (fun i => i ≠ si) := by
    intro x hxr
    rw [List.mem_filter]
    exact ⟨List.mem_range.2 (hx x hxr).1, decide_eq_true (hx x hxr).2⟩
  have hsp := List.subperm_of_subset hnd hsub
  exact hsp.perm_of_length_le (by omega)

theorem map_idxOf_nodup (nodes : List α) (l : List α)
    (hl : ∀ x ∈ l, x ∈ nodes) (hnd : l.Nodup) :
    (l.map (idxOf nodes)).Nodup := by
  refine List.Nodup.map_on ?_ hnd
  intro x hx y hy hxy
  have h1 : nodes.getD (idxOf nodes x) x = x := getD_idxOf nodes x x (hl x hx)
  have h2 : nodes.getD (idxOf nodes y) y = y := getD_idxOf nodes y y (hl y hy)
  calc x = nodes.getD (idxOf nodes x) x := h1.symm
    _ = nodes.getD (idxOf nodes y) x := by rw [hxy]
    _ = nodes.getD (idxOf nodes y) y := by
        have hlt : idxOf nodes y < nodes.length := idxOf_lt_length _ _ (hl y hy)
        rw [List.getD_eq_getElem?_getD, List.getD_eq_getElem?_getD,
          List.getElem?_eq_getElem hlt]
        rfl
    _ = y := h2

theorem btStart_lt (G : Graph α) (start : α) (hs : start ∈ nodesOf G) :
    btStart G start < (nodesOf G).length := idxOf_lt_length _ _ hs

theorem btRun_callInv (G : Graph α) (start : α) (hs : start ∈ nodesOf G) :
    CallInv (nodesOf G).length (btDist G start) (btStart G start)
      ((List.replicate (nodesOf G).length false).set (btStart G start) true)
      (btStart G start) 0 [btStart G start] := by
  refine ⟨[], rfl, ?_, ?_, ?_, rfl, rfl, ?_⟩
  · exact mkVisited_init _ _ (btStart_lt G start hs)
  · exact List.nodup_singleton _
  · intro x hx
    rw [List.mem_singleton.1 hx]
    exact btStart_lt G start hs
  · exact (by decide : (0 : ℕ∞) ≠ ⊤)

theorem btRun_stateInv (G : Graph α) (start : α) (hs : start ∈ nodesOf G) :
    StateInv (nodesOf G).length (btDist G start) (btStart G start)
      (btRun G start) := by
  rw [btRun]
  exact backtrack_stateInv (nodesOf G).length (btDist G start) (btStart G start)
    (btName G start) (nodesOf G).length _ _ _ _ _ _
    (btRun_callInv G start hs) (fun h => absurd rfl h)

theorem btRun_bound (G : Graph α) (start : α) (hs : start ∈ nodesOf G)
    (rest : List Nat) (hnd : rest.Nodup)
    (hlt : ∀ x ∈ rest, x < (nodesOf G).length)
    (hdisj : ∀ x ∈ rest, x ∉ [btStart G start])
    (hlen : 1 + rest.length = (nodesOf G).length)
    (hfin : extCost (btDist G start) (btStart G start) (btStart G start) rest ≠ ⊤) :
    (btRun G start).best_cost
      ≤ extCost (btDist G start) (btStart G start) (btStart G start) rest := by
  rw [btRun]
  have h0 := backtrack_bound (nodesOf G).length (btDist G start)
    (btStart G start) (btName G start) rest (nodesOf G).length
    ((List.replicate (nodesOf G).length false).set (btStart G start) true)
    (btStart G start) 0 [btStart G start] 0
    { best_cost := ⊤, best_path := [], steps := [] }
    (by omega) (mkVisited_init _ _ (btStart_lt G start hs)) hnd hlt hdisj
    (by simpa using hlen) (by rw [zero_add]; exact hfin)
  rw [zero_add] at h0
  exact h0

theorem backtracking_tsp_run (G : Graph α) (start : α)
    (hs : start ∈ nodesOf G) (hn1 : ¬ (nodesOf G).length = 1) :
    backtracking_tsp G start =
      if (btRun G start).best_cost = ⊤ then .ok ([], 0, (btRun G start).steps)
      else .ok ((btRun G start).best_path.map (fun i => (nodesOf G).getD i start),
        (btRun G start).best_cost, (btRun G start).steps) := by
  match G with
  | [] => simp [nodesOf] at hs
  | g :: gs => simp only [backtracking_tsp, hs, if_true, hn1, if_false]

/-! ### The claims -/

/-- C2: for every complete graph (finite, symmetric cost on every pair of
distinct nodes; node identifiers unique per the data model) and every start
node in it, the total cost returned by `backtracking_tsp` is less than or
equal to the total cost returned by `greedy_tsp` for the same graph and start
node. -/
theorem exact_router_le_greedy (G : Graph α) (start : α)
    (hnd : (nodesOf G).Nodup) (hs : start ∈ nodesOf G)
    (hcomp : ∀ u ∈ nodesOf G, ∀ v ∈ nodesOf G, u ≠ v → nameDist G u v ≠ ⊤)
    (hsymm : ∀ u ∈ nodesOf G, ∀ v ∈ nodesOf G, nameDist G u v = nameDist G v u)
    (groute : List α) (gcost : ℕ∞) (broute : List α) (bcost : ℕ∞)
    (tr : List (Step α))
    (hg : greedy_tsp G start true = .ok (groute, gcost))
    (hb : backtracking_tsp G start = .ok (broute, bcost, tr)) :
    bcost ≤ gcost := by
  by_cases hn1 : (nodesOf G).length = 1
  · match G with
    | [] => simp [nodesOf] at hs
    | g :: gs =>
      simp only [backtracking_tsp, hs, if_true, hn1] at hb
      injection hb with hb2
      injection hb2 with h1 h2
      injection h2 with h3 h4
      rw [← h3]
      exact zero_le _
  · obtain ⟨mids, cc, hperm, hcc, heq⟩ := greedy_tsp_spec G start hnd hs hn1
    rw [heq] at hg
    injection hg with hg2
    injection hg2 with hg3 hg4
    have hmidmem : ∀ m ∈ mids, m ∈ nodesOf G ∧ m ≠ start := by
      intro m hm
      have h0 := hperm.mem_iff.1 hm
      rw [List.mem_filter] at h0
      exact ⟨h0.1, by simpa using h0.2⟩
    have hTle : extCostName G start start mids ≤ gcost := by
      rw [extCostName_eq_walk, ← hg4]
      exact add_le_add_left hcc _
    by_cases hT : extCostName G start start mids = ⊤
    · have hgt : gcost = ⊤ := top_le_iff.1 (hT ▸ hTle)
      rw [hgt]
      exact le_top
    · have hmlen : mids.length + 1 = (nodesOf G).length := by
        rw [hperm.length_eq]
        exact filter_ne_length _ start hnd hs
      have hrnd : (mids.map (idxOf (nodesOf G))).Nodup :=
        map_idxOf_nodup _ _ (fun x hx => (hmidmem x hx).1)
          ((hperm.symm).nodup (hnd.filter _))
      have hrlt : ∀ i ∈ mids.map (idxOf (nodesOf G)), i < (nodesOf G).length := by
        intro i hi
        obtain ⟨m, hm, rfl⟩ := List.mem_map.1 hi
        exact idxOf_lt_length _ _ (hmidmem m hm).1
      have hrdisj : ∀ i ∈ mids.map (idxOf (nodesOf G)),
          i ∉ [btStart G start] := by
        intro i hi hmem
        obtain ⟨m, hm, rfl⟩ := List.mem_map.1 hi
        have heqi : idxOf (nodesOf G) m = btStart G start :=
          List.mem_singleton.1 hmem
        have h1 := getD_idxOf (nodesOf G) m start (hmidmem m hm).1
        rw [heqi, btStart, getD_idxOf (nodesOf G) start start hs] at h1
        exact (hmidmem m hm).2 h1.symm
      have hrlen : 1 + (mids.map (idxOf (nodesOf G))).length
          = (nodesOf G).length := by
        rw [List.length_map]
        omega
      have hext : extCost (btDist G start) (btStart G start) (btStart G start)
          (mids.map (idxOf (nodesOf G))) = extCostName G start start mids := by
        rw [btStart]
        exact extCost_map_idx G start hs mids start hs
          (fun x hx => (hmidmem x hx).1)
      have hbound := btRun_bound G start hs (mids.map (idxOf (nodesOf G)))
        hrnd hrlt hrdisj hrlen (by rw [hext]; exact hT)
      rw [hext] at hbound
      have hbne : (btRun G start).best_cost ≠ ⊤ := ne_top_of_le_ne_top hT hbound
      rw [backtracking_tsp_run G start hs hn1, if_neg hbne] at hb
      injection hb with hb2
      injection hb2 with h1 h2
      injection h2 with h3 h4
      rw [← h3]
      exact le_trans hbound hTle

/-- Witness for C2 at a concrete complete symmetric three-node graph: both
routers report cost 7 and the inequality is exercised. -/
theorem exact_router_le_greedy_witness :
    greedy_tsp [(0, [(0, (0 : ℕ∞)), (1, 1), (2, 4)]), (1, [(0, 1), (1, 0), (2, 2)]),
        (2, [(0, 4), (1, 2), (2, 0)])] 0 true = .ok ([0, 1, 2, 0], 7) ∧
    (7 : ℕ∞) ≤ 7 := by
  refine ⟨by decide, ?_⟩
  exact exact_router_le_greedy
    [(0, [(0, (0 : ℕ∞)), (1, 1), (2, 4)]), (1, [(0, 1), (1, 0), (2, 2)]),
      (2, [(0, 4), (1, 2), (2, 0)])] 0
    (by decide) (by decide) (by decide) (by decide)
    [0, 1, 2, 0] 7 [0, 1, 2, 0] 7
    (btRun [(0, [(0, (0 : ℕ∞)), (1, 1), (2, 4)]), (1, [(0, 1), (1, 0), (2, 2)]),
      (2, [(0, 4), (1, 2), (2, 0)])] 0).steps
    (by decide) (by decide)

/-- C1 (refuted by the code): `backtracking_tsp` applies no sentinel
normalization when building its distance matrix, so on the graph
`{0: {1: 999999}, 1: {0: 1}}` with start `0` the stored cost `999999` is used
as an ordinary finite cost: the sentinel-level edge is taken as a branch step
and the tour is reported with the finite cost `1000000` instead of being
reported infeasible. -/
theorem backtracking_sentinel_edge_taken_finite :
    backtracking_tsp [(0, [(1, (999999 : ℕ∞))]), (1, [(0, 1)])] 0
      = .ok ([0, 1, 0], 1000000,
          (btRun [(0, [(1, (999999 : ℕ∞))]), (1, [(0, 1)])] 0).steps) ∧
    (1000000 : ℕ∞) ≠ ⊤ := by decide

/-- C3 (refuted by the code): in `greedy_tsp`'s main loop a stored cost at or
above the sentinel is appended to the candidate list raw (not normalized to
INFINITE), the raw cost is what the minimum comparison sees and what is added
to the running total: on `{0: {1: 999999}, 1: {0: 1}}` with start `0` and
`allow_disconnected = True` the returned tour traverses the sentinel-level
edge yet has the finite total `1000000`, not INFINITE. -/
theorem greedy_sentinel_cost_added_raw :
    greedy_tsp [(0, [(1, (999999 : ℕ∞))]), (1, [(0, 1)])] 0 true
      = .ok ([0, 1, 0], 1000000) ∧
    (1000000 : ℕ∞) ≠ ⊤ := by decide

/-- C9: on the two-node graph `{A: {B: 1}, B: {A: 1}}` with start `A`,
`backtracking_tsp` returns the route `[A, B, A]` with cost `2`, and the trace
contains exactly one step marked as a new best solution. -/
theorem two_node_exact_route :
    backtracking_tsp [("A", [("B", (1 : ℕ∞))]), ("B", [("A", 1)])] "A"
      = .ok (["A", "B", "A"], 2,
          (btRun [("A", [("B", (1 : ℕ∞))]), ("B", [("A", 1)])] "A").steps) ∧
    ((btRun [("A", [("B", (1 : ℕ∞))]), ("B", [("A", 1)])] "A").steps.countP
      (fun st => st.is_solution)) = 1 := by decide

/-- C8 (counterexample to the claim as stated): on the EMPTY graph, any start
identifier is not a node of the graph, yet both routers return a successful
empty result instead of a node-not-found error (the emptiness check precedes
the membership check in both). -/
theorem start_missing_counterexample :
    (0 : Nat) ∉ nodesOf ([] : Graph Nat) ∧
    greedy_tsp ([] : Graph Nat) 0 true = .ok ([], 0) ∧
    greedy_tsp ([] : Graph Nat) 0 false = .ok ([], 0) ∧
    backtracking_tsp ([] : Graph Nat) 0 = .ok ([], 0, []) := by decide

/-- C8 (amended): for every NON-EMPTY graph and every start identifier that is
not a node of the graph, each router fails with the node-not-found error and
returns no route. -/
theorem start_missing_errors (G : Graph α) (start : α) (hne : G ≠ [])
    (hs : start ∉ nodesOf G) (allow : Bool) :
    greedy_tsp G start allow = .error (.nodeNotFound start) ∧
    backtracking_tsp G start = .error (.nodeNotFound start) := by
  match G with
  | [] => exact absurd rfl hne
  | g :: gs =>
    exact ⟨by simp [greedy_tsp, hs], by simp [backtracking_tsp, hs]⟩

/-- Witness for the amended C8 at a concrete one-node graph with an absent
start identifier. -/
theorem start_missing_errors_witness :
    (([(0, [])] : Graph Nat) ≠ [] ∧ (1 : Nat) ∉ nodesOf ([(0, [])] : Graph Nat)) ∧
    greedy_tsp ([(0, [])] : Graph Nat) 1 true = .error (.nodeNotFound 1) ∧
    backtracking_tsp ([(0, [])] : Graph Nat) 1 = .error (.nodeNotFound 1) :=
  ⟨⟨by decide, by decide⟩,
    start_missing_errors ([(0, [])] : Graph Nat) 1 (by decide) (by decide) true⟩

/-- C5 (refuted by the code): the no-more-valid-moves backtrack step is
appended after EVERY non-pruned, non-complete, non-initial call, even when
branches were explored there.  On the graph
`{A: {B: 1, C: 4}, B: {A: 1, C: 2}, C: {A: 4, B: 2}}` with start `A`, the
trace contains such steps for the calls at paths `[A, B]` and `[A, C]`, both
of which had (and explored) an unvisited successor of finite cost
(`B → C` and `C → B` cost `2`). -/
theorem no_more_valid_moves_after_branching :
    (((btRun [("A", [("B", (1 : ℕ∞)), ("C", 4)]), ("B", [("A", 1), ("C", 2)]),
        ("C", [("A", 4), ("B", 2)])] "A").steps.filter
      (fun st => st.reason = some Reason.noMoreValidMoves)).map
        (fun st => st.path) = [["A", "B"], ["A", "C"]]) ∧
    nameDist [("A", [("B", (1 : ℕ∞)), ("C", 4)]), ("B", [("A", 1), ("C", 2)]),
      ("C", [("A", 4), ("B", 2)])] "B" "C" = 2 ∧
    nameDist [("A", [("B", (1 : ℕ∞)), ("C", 4)]), ("B", [("A", 1), ("C", 2)]),
      ("C", [("A", 4), ("B", 2)])] "C" "B" = 2 ∧
    ("C" ∉ (["A", "B"] : List String)) ∧ ("B" ∉ (["A", "C"] : List String)) := by
  decide

/-- C4: a `backtrack` call is terminated by pruning exactly when the
accumulated cost reaches or exceeds the current best (non-strict `>=`, so an
equal-cost alternative is pruned): under the bound the call appends exactly
the expansion and pruning records and leaves the best solution untouched, the
pruning record appears right after the expansion record precisely when the
bound is met, and at a completed path the recorded best is replaced exactly
when the closing edge is finite and the completed total strictly improves
(`<`) on the best known cost. -/
theorem prune_nonstrict_improve_strict (n : Nat) (dist : Nat → Nat → ℕ∞)
    (si : Nat) (iN : Nat → α) (fuel : Nat) (visited : List Bool) (pos : Nat)
    (cost : ℕ∞) (path : List Nat) (depth : Nat) (s : BState α) :
    (s.best_cost ≤ cost →
      backtrack n dist si iN (fuel + 1) visited pos cost path depth s
        = { s with steps := s.steps ++ [expandStep iN depth pos cost path visited,
            pruneStep iN depth pos cost path visited s.best_cost] })
    ∧ ((backtrack n dist si iN (fuel + 1) visited pos cost path depth
          s).steps[s.steps.length + 1]?
        = some (pruneStep iN depth pos cost path visited s.best_cost)
        ↔ s.best_cost ≤ cost)
    ∧ (cost < s.best_cost → path.length = n →
        (backtrack n dist si iN (fuel + 1) visited pos cost path depth
            s).best_cost
          = (if dist pos si ≠ ⊤ ∧ cost + dist pos si < s.best_cost
             then cost + dist pos si else s.best_cost)
        ∧ (backtrack n dist si iN (fuel + 1) visited pos cost path depth
            s).best_path
          = (if dist pos si ≠ ⊤ ∧ cost + dist pos si < s.best_cost
             then path ++ [si] else s.best_path)) := by
  refine ⟨fun hp => backtrack_prune n dist si iN fuel visited pos cost path
    depth s hp, ⟨?_, ?_⟩, ?_⟩
  · intro hidx
    by_contra hnp
    by_cases hlen : path.length = n
    · by_cases hrc : dist pos si ≠ ⊤
      · by_cases himp : cost + dist pos si < s.best_cost
        · rw [backtrack_newBest n dist si iN fuel visited pos cost path depth s
            hnp hlen hrc himp] at hidx
          rw [List.getElem?_append_right (by simp)] at hidx
          simp only [List.length_append, List.length_cons, List.length_nil] at hidx
          rw [show s.steps.length + 1 - (s.steps.length + (0 + 1)) = 0 by omega]
            at hidx
          injection hidx with h2
          exact absurd (congrArg Step.is_backtrack h2) (by simp [newBestStep,
            pruneStep])
        · rw [backtrack_noImprove n dist si iN fuel visited pos cost path depth s
            hnp hlen hrc himp] at hidx
          rw [List.getElem?_eq_none (by simp)] at hidx
          exact Option.noConfusion hidx
      · rw [backtrack_noReturn n dist si iN fuel visited pos cost path depth s
          hnp hlen hrc] at hidx
        rw [List.getElem?_append_right (by simp)] at hidx
        rw [show s.steps.length + 1 - s.steps.length = 1 by omega] at hidx
        injection hidx with h2
        exact absurd (congrArg Step.reason h2) (by simp [noReturnStep, pruneStep])
    · rw [backtrack_branch n dist si iN fuel visited pos cost path depth s hnp
        hlen] at hidx
      obtain ⟨t1, ht1, hsh1⟩ := tryMoves_steps_shape dist
        (fun vis p c pth d st => backtrack n dist si iN fuel vis p c pth d st)
        (fun vis p c pth d st =>
          backtrack_steps_shape n dist si iN fuel vis p c pth d st)
        (List.range n) visited pos cost path depth
        { s with steps := s.steps ++ [expandStep iN depth pos cost path visited] }
      have ht1x : (tryMoves dist
          (fun vis p c pth d st => backtrack n dist si iN fuel vis p c pth d st)
          (List.range n) visited pos cost path depth
          { s with steps :=
            s.steps ++ [expandStep iN depth pos cost path visited] }).steps
          = (s.steps ++ [expandStep iN depth pos cost path visited]) ++ t1 := ht1
      by_cases hd : 0 < depth
      · rw [if_pos hd] at hidx
        simp only [ht1x] at hidx
        rw [List.append_assoc (s.steps ++ [expandStep iN depth pos cost path
          visited]) t1 [noMovesStep iN depth pos cost path visited]] at hidx
        rw [List.getElem?_append_right (by simp)] at hidx
        rw [show s.steps.length + 1
          - (s.steps ++ [expandStep iN depth pos cost path visited]).length = 0
          by simp] at hidx
        rcases hsh1 with h0 | ⟨x, t2, rfl, hx⟩
        · rw [h0] at hidx
          simp only [List.nil_append] at hidx
          injection hidx with h2
          exact absurd (congrArg Step.reason h2) (by simp [noMovesStep, pruneStep])
        · simp only [List.cons_append] at hidx
          rw [List.getElem?_cons_zero] at hidx
          injection hidx with h2
          rw [h2] at hx
          exact absurd hx (by simp [pruneStep])
      · rw [if_neg hd] at hidx
        rw [ht1x, List.getElem?_append_right (by simp)] at hidx
        rw [show s.steps.length + 1
          - (s.steps ++ [expandStep iN depth pos cost path visited]).length = 0
          by simp] at hidx
        rcases hsh1 with h0 | ⟨x, t2, rfl, hx⟩
        · rw [h0] at hidx
          exact Option.noConfusion hidx
        · rw [List.getElem?_cons_zero] at hidx
          injection hidx with h2
          rw [h2] at hx
          exact absurd hx (by simp [pruneStep])
  · intro hp
    rw [backtrack_prune n dist si iN fuel visited pos cost path depth s hp]
    rw [List.getElem?_append_right (by simp)]
    rw [show s.steps.length + 1 - s.steps.length = 1 by omega]
    rfl
  · intro hlt hlen
    have hnp : ¬ s.best_cost ≤ cost := not_le.2 hlt
    by_cases hrc : dist pos si ≠ ⊤
    · by_cases himp : cost + dist pos si < s.best_cost
      · rw [backtrack_newBest n dist si iN fuel visited pos cost path depth s
          hnp hlen hrc himp, if_pos ⟨hrc, himp⟩, if_pos ⟨hrc, himp⟩]
        exact ⟨rfl, rfl⟩
      · rw [backtrack_noImprove n dist si iN fuel visited pos cost path depth s
          hnp hlen hrc himp, if_neg (fun h => himp h.2), if_neg (fun h => himp h.2)]
        exact ⟨rfl, rfl⟩
    · rw [backtrack_noReturn n dist si iN fuel visited pos cost path depth s
        hnp hlen hrc, if_neg (fun h => hrc h.1), if_neg (fun h => hrc h.1)]
      exact ⟨rfl, rfl⟩

/-- Witness for C4: a pruned call with `best = 5 ≤ cost = 7` produces exactly
the expansion and pruning records, and a completed-path call with
`cost = 3 < best = 10` and finite closing edge records the improved best `4`. -/
theorem prune_nonstrict_improve_strict_witness :
    ((5 : ℕ∞) ≤ 7) ∧
    backtrack 2 (fun _ _ => 1) 0 (fun i => i) 1 [true, true] 1 7 [0, 1] 1
        ⟨5, [], []⟩
      = ⟨5, [], [expandStep (fun i => i) 1 1 7 [0, 1] [true, true],
          pruneStep (fun i => i) 1 1 7 [0, 1] [true, true] 5]⟩ ∧
    (backtrack 2 (fun _ _ => 1) 0 (fun i => i) 1 [true, true] 1 3 [0, 1] 1
        ⟨10, [], []⟩).best_cost = 4 := by
  refine ⟨by decide, ?_, ?_⟩
  · exact (prune_nonstrict_improve_strict 2 (fun _ _ => 1) 0 (fun i => i) 0
      [true, true] 1 7 [0, 1] 1 ⟨5, [], []⟩).1 (by decide)
  · exact ((prune_nonstrict_improve_strict 2 (fun _ _ => 1) 0 (fun i => i) 0
      [true, true] 1 3 [0, 1] 1 ⟨10, [], []⟩).2.2 (by decide) (by decide)).1.trans
      (by decide)

/-- C10: for every non-empty graph with unique node identifiers whose node set
contains the start node, `greedy_tsp` with `allow_disconnected = True` never
raises an exception: it returns a successful result whose route has length
`|V| + 1` (both error branches are unreachable). -/
theorem greedy_allow_disconnected_total (G : Graph α) (start : α)
    (hne : G ≠ []) (hnd : (nodesOf G).Nodup) (hs : start ∈ nodesOf G) :
    (greedy_tsp G start true).map (fun r => r.1.length)
      = .ok ((nodesOf G).length + 1) := by
  by_cases hn1 : (nodesOf G).length = 1
  · match G with
    | [] => exact absurd rfl hne
    | g :: gs =>
      obtain ⟨x, hx⟩ := List.length_eq_one.1 hn1
      have hxs : x = start := by
        have := hs
        rw [hx] at this
        exact (List.mem_singleton.1 this).symm
      have hfil : (nodesOf (g :: gs)).filter (fun v => v ≠ start) = [] := by
        rw [hx, hxs]
        simp
      simp only [greedy_tsp, hs, if_true, hfil, Except.map, hn1]
      rfl
  · obtain ⟨mids, cc, hperm, hcc, heq⟩ := greedy_tsp_spec G start hnd hs hn1
    rw [heq]
    have hmlen : mids.length + 1 = (nodesOf G).length := by
      rw [hperm.length_eq]
      exact filter_ne_length _ start hnd hs
    simp only [Except.map, List.length_cons, List.length_append,
      List.length_cons, List.length_nil]
    rw [show mids.length + (0 + 1) + 1 = mids.length + 1 + 1 by omega, hmlen]

/-- Witness for C10: a two-node graph with no usable edges at all still yields
a complete route of length `|V| + 1 = 3`. -/
theorem greedy_allow_disconnected_total_witness :
    (greedy_tsp ([(0, []), (1, [])] : Graph Nat) 0 true).map
      (fun r => r.1.length)
      = .ok ((nodesOf ([(0, []), (1, [])] : Graph Nat)).length + 1) :=
  greedy_allow_disconnected_total ([(0, []), (1, [])] : Graph Nat) 0
    (by decide) (by decide) (by decide)

/-- C7: for every graph with at least two nodes containing the start node, if
no feasible closed tour exists (every completion of the initial path has
infinite cost under the search's distance matrix, which is exactly the
situation in which the search exhausts its space without recording a best
solution), `backtracking_tsp` raises no exception: it returns the empty
route, cost `0`, and the trace collected by the exhausted search. -/
theorem no_solution_returns_empty (G : Graph α) (start : α)
    (h2 : 2 ≤ (nodesOf G).length) (hs : start ∈ nodesOf G)
    (hnf : noFeasibleTour G start) :
    backtracking_tsp G start = .ok ([], 0, (btRun G start).steps) := by
  have hn1 : ¬ (nodesOf G).length = 1 := by omega
  have hbest : (btRun G start).best_cost = ⊤ := by
    by_contra hne
    obtain ⟨_, ⟨rest, hrnd, hrx, hrlen, hrfin⟩⟩ := btRun_stateInv G start hs hne
    have hmem : rest ∈ completionsOf (nodesOf G).length [btStart G start] :=
      feasible_mem_completions _ _ (btStart_lt G start hs) rest hrnd hrx hrlen
    exact hrfin (hnf rest hmem)
  rw [backtracking_tsp_run G start hs hn1, if_pos hbest]

/-- Witness for C7: the graph `{0: {1: 1}, 1: {}}` has no edge back to the
start, so no feasible closed tour exists and the router returns the
empty-route result with the collected trace. -/
theorem no_solution_returns_empty_witness :
    (2 ≤ (nodesOf ([(0, [(1, 1)]), (1, [])] : Graph Nat)).length ∧
      (0 : Nat) ∈ nodesOf ([(0, [(1, 1)]), (1, [])] : Graph Nat) ∧
      noFeasibleTour ([(0, [(1, 1)]), (1, [])] : Graph Nat) 0) ∧
    backtracking_tsp ([(0, [(1, 1)]), (1, [])] : Graph Nat) 0
      = .ok ([], 0, (btRun ([(0, [(1, 1)]), (1, [])] : Graph Nat) 0).steps) :=
  ⟨⟨by decide, by decide, by unfold noFeasibleTour; decide⟩,
    no_solution_returns_empty ([(0, [(1, 1)]), (1, [])] : Graph Nat) 0
      (by decide) (by decide) (by unfold noFeasibleTour; decide)⟩

/-- C6 (counterexample to the claim as stated): reading "interior" as the
elements strictly between the first and last element, the claim fails: on
`{0: {1: 1}, 1: {0: 1}}` with start `0` the greedy route is `[0, 1, 0]`, whose
strict interior is `[1]`, and the graph node `0` appears `0` times there, not
exactly once. -/
theorem route_interior_counterexample :
    greedy_tsp [(0, [(1, (1 : ℕ∞))]), (1, [(0, 1)])] 0 true
      = .ok ([0, 1, 0], 2) ∧
    (0 : Nat) ∈ nodesOf ([(0, [(1, (1 : ℕ∞))]), (1, [(0, 1)])] : Graph Nat) ∧
    ((([0, 1, 0] : List Nat).drop 1).dropLast).count 0 = 0 := by decide

/-- C6 (amended): whenever either router returns a non-empty route for a graph
with unique node identifiers containing the start node, the route's first and
last elements both equal the start node, and after dropping the final closing
element every node of the graph occurs in the route exactly once (equivalently
every non-start node occurs exactly once strictly between first and last). -/
theorem route_roundtrip (G : Graph α) (start : α) (hnd : (nodesOf G).Nodup)
    (hs : start ∈ nodesOf G) :
    (∀ (allow : Bool) (r : List α) (t : ℕ∞),
      greedy_tsp G start allow = .ok (r, t) → r ≠ [] →
      r.head? = some start ∧ r.getLast? = some start ∧
      ∀ v ∈ nodesOf G, r.dropLast.count v = 1)
    ∧ (∀ (r : List α) (c : ℕ∞) (tr : List (Step α)),
      backtracking_tsp G start = .ok (r, c, tr) → r ≠ [] →
      r.head? = some start ∧ r.getLast? = some start ∧
      ∀ v ∈ nodesOf G, r.dropLast.count v = 1) := by
  constructor
  · intro allow r t hok hr
    obtain ⟨mids, hperm, hshape⟩ := greedy_tsp_shape G start allow r t hok hr
    subst hshape
    refine ⟨rfl, ?_, ?_⟩
    · rw [show start :: (mids ++ [start]) = (start :: mids) ++ [start] from rfl]
      exact List.getLast?_concat _
    · intro v hv
      rw [show start :: (mids ++ [start]) = (start :: mids) ++ [start] from rfl,
        List.dropLast_concat]
      by_cases hvs : v = start
      · subst hvs
        rw [List.count_cons_self]
        have h0 : mids.count v = 0 := by
          rw [hperm.count_eq, List.count_eq_zero]
          intro hmem
          have h1 := (List.mem_filter.1 hmem).2
          simp at h1
        rw [h0]
      · rw [List.count_cons_of_ne hvs, hperm.count_eq,
          List.count_filter (by simpa using hvs)]
        exact List.count_eq_one_of_mem hnd hv
  · intro r c tr hok hr
    by_cases hn1 : (nodesOf G).length = 1
    · match G with
      | [] => simp [nodesOf] at hs
      | g :: gs =>
        simp only [backtracking_tsp, hs, if_true, hn1] at hok
        injection hok with h2
        injection h2 with h3 h4
        obtain ⟨x, hx⟩ := List.length_eq_one.1 hn1
        have hxs : x = start := by
          rw [hx] at hs
          exact (List.mem_singleton.1 hs).symm
        rw [← h3]
        refine ⟨rfl, by simp, ?_⟩
        intro v hv
        rw [hx, hxs] at hv
        rw [List.mem_singleton.1 hv]
        simp
    · rw [backtracking_tsp_run G start hs hn1] at hok
      by_cases hb : (btRun G start).best_cost = ⊤
      · rw [if_pos hb] at hok
        injection hok with h2
        injection h2 with h3 h4
        exact absurd h3.symm hr
      · rw [if_neg hb] at hok
        injection hok with h2
        injection h2 with h3 h4
        obtain ⟨⟨p, hbp, hpnd, hplt, hplen, hphead⟩, _⟩ :=
          btRun_stateInv G start hs hb
        have hperm : p.Perm (List.range (nodesOf G).length) :=
          perm_range_of_nodup _ p hpnd hplt hplen
        have hiN : (nodesOf G).getD (btStart G start) start = start :=
          getD_idxOf _ _ _ hs
        have hiN2 : ((nodesOf G)[btStart G start]?).getD start = start := by
          rw [← List.getD_eq_getElem?_getD]
          exact hiN
        obtain ⟨t2, hpt⟩ : ∃ t2, p = btStart G start :: t2 := by
          match p, hphead with
          | a :: t2, hphead =>
            injection hphead with ha
            exact ⟨t2, by rw [ha]⟩
        rw [← h3, hbp, List.map_append]
        have hmapsi : [btStart G start].map (fun i => (nodesOf G).getD i start)
            = [start] := by simp [hiN, hiN2]
        rw [hmapsi]
        refine ⟨?_, List.getLast?_concat _, ?_⟩
        · simp [hpt, hiN, hiN2]
        · intro v hv
          rw [List.dropLast_concat]
          have hmap : (p.map (fun i => (nodesOf G).getD i start)).Perm
              (nodesOf G) := by
            have h5 := hperm.map (fun i => (nodesOf G).getD i start)
            rw [map_getD_range] at h5
            exact h5
          rw [hmap.count_eq]
          exact List.count_eq_one_of_mem hnd hv

/-- Witness for the amended C6, exercised through the greedy router on the
two-node graph `{0: {1: 1}, 1: {0: 1}}` with route `[0, 1, 0]`. -/
theorem route_roundtrip_witness :
    (([0, 1, 0] : List Nat).head? = some 0) ∧
    (([0, 1, 0] : List Nat).getLast? = some 0) ∧
    (([0, 1, 0] : List Nat).dropLast.count 0 = 1) ∧
    (([0, 1, 0] : List Nat).dropLast.count 1 = 1) := by
  have h := (route_roundtrip [(0, [(1, (1 : ℕ∞))]), (1, [(0, 1)])] 0
    (by decide) (by decide)).1 true [0, 1, 0] 2 (by decide) (by decide)
  exact ⟨h.1, h.2.1, h.2.2 0 (by decide), h.2.2 1 (by decide)⟩

end TSP
